import Mathlib

/-!
# Verification of the PPTX merger core (`src/services/pptx_merger.py`)

A shallow embedding of the `PPTXMerger` class.  Paths are `String`s joined
with `/` exactly as the Python code manipulates them; the filesystem of an
extracted source package, the destination working tree, the parsed
presentation documents and the content-type documents are explicit data.
Python `dict`s become association lists (insertion order preserved, first
binding wins on lookup, which matches a dict whose keys are inserted at most
once), Python sets become lists used only through membership.

The recursive part import (`_import_part` together with
`_process_relationships`) is embedded fuel-indexed and structurally
recursive, so every definition evaluates by kernel reduction; a separate
theorem shows a concrete fuel bound under which the recursion never runs
out, which is the termination statement for the relationship-closure
traversal.
-/

set_option maxRecDepth 10000

/-! ## String and path helpers (mirroring `pathlib` / `os.path` behaviour) -/

/-- The characters of a string. -/
def chars (s : String) : List Char := s.data

/-- Build a string back from characters. -/
def ofChars (l : List Char) : String := ⟨l⟩

/-- Lowercase every character, as Python `str.lower` does for ASCII names. -/
def lowerStr (s : String) : String := ofChars (s.data.map Char.toLower)

/-- Split a character list at `/`. -/
def splitChars : List Char → List (List Char)
  | [] => [[]]
  | c :: cs =>
    if c = '/' then [] :: splitChars cs
    else
      match splitChars cs with
      | [] => [[c]]
      | g :: gs => (c :: g) :: gs

/-- Join character groups with `/`. -/
def joinChars : List (List Char) → List Char
  | [] => []
  | [g] => g
  | g :: gs => g ++ '/' :: joinChars gs

/-- Split a string at `/`, like `str.split("/")`; inverse of `joinPath`. -/
def splitPath (s : String) : List String :=
  (splitChars s.data).map ofChars

/-- Join path components with `/`, like `"/".join`. -/
def joinPath (l : List String) : String :=
  ofChars (joinChars (l.map chars))

/-- Whether `p` is a (list) prefix of `q`. -/
def listIsPref {α : Type} [DecidableEq α] : List α → List α → Bool
  | [], _ => true
  | _ :: _, [] => false
  | a :: as, b :: bs => a = b && listIsPref as bs

/-- `s.startswith t` on strings. -/
def strStarts (t s : String) : Bool := listIsPref t.data s.data

/-- Drop the first `n` characters of a string, like `s[n:]`. -/
def strDrop (s : String) (n : Nat) : String := ofChars (s.data.drop n)

/-- `t in s` — substring containment, as used on relationship `Type` URIs. -/
def containsSub (t s : String) : Bool :=
  go s.data
where
  go : List Char → Bool
    | [] => listIsPref t.data []
    | c :: cs => listIsPref t.data (c :: cs) || go cs

/-- Python `str.rstrip('s')`: drop trailing `'s'` characters
(`part_type.rstrip('s')` computes the filename stem for a category). -/
def rstripEss (s : String) : String :=
  ofChars ((s.data.reverse.dropWhile (fun c => c = 's')).reverse)

/-- Python `str.lstrip('/')`: drop every leading slash. -/
def lstripSlash (s : String) : String :=
  ofChars (s.data.dropWhile (fun c => c = '/'))

/-- The last path component, `pathlib.PurePath.name`. -/
def pathName (p : String) : String :=
  (splitPath p).getLastD ""

/-- All but the last path component, `pathlib.PurePath.parent` as components. -/
def parentComps (p : String) : List String :=
  (splitPath p).dropLast

/-- `pathlib.PurePath.suffix`: the extension of the last component including
the dot; empty when the last component has no interior dot
(`name[i:]` when `0 < i < len(name)-1` for `i = name.rfind('.')`). -/
def pySuffix (p : String) : String :=
  let n := (pathName p).data
  let after := (n.reverse.takeWhile (fun c => c ≠ '.')).reverse
  if after.length = n.length then ""       -- no dot at all
  else if after.length = 0 then ""         -- dot is the last character
  else if n.length - 1 - after.length = 0 then ""  -- dot is the first character
  else ofChars ('.' :: after)

/-- `pathlib.PurePath.stem`: last component without `pySuffix`. -/
def pyStem (p : String) : String :=
  let n := (pathName p).data
  let suf := (pySuffix p).data
  ofChars (n.take (n.length - suf.length))

/-- The extension key used for `Default` content-type lookups:
`Path(p).suffix.lstrip('.').lower()`. -/
def extKey (p : String) : String :=
  lowerStr (ofChars ((pySuffix p).data.dropWhile (fun c => c = '.')))

/-- Parse a decimal numeral, `int(s)` restricted to the success case; `none`
models the inputs on which the Python call would raise (the code never
catches that exception, so such packages abort the merge; the embedding
skips them instead, which only matters for malformed skeletons). -/
def decDigits? : List Char → Option Nat
  | [] => none
  | l => go l 0
where
  go : List Char → Nat → Option Nat
    | [], acc => some acc
    | c :: cs, acc =>
      if c.isDigit then go cs (acc * 10 + (c.toNat - '0'.toNat)) else none

/-- `int(s)` on a string. -/
def strToNat? (s : String) : Option Nat := decDigits? s.data

/-- `os.path.normpath`-style resolution used to model `Path.resolve()`:
starting from the directory components `acc` (relative to the extraction or
work root), walk the target components, ignoring empty components and `.`,
popping one component on `..`.  Returns `none` when `..` would escape above
the root, which the Python code observes as `relative_to` raising (or the
path leaving the scratch area); every caller treats that as "target cannot
be mapped" and skips. -/
def resolveComps : List String → List String → Option (List String)
  | acc, [] => some acc
  | acc, c :: cs =>
    if c = "" ∨ c = "." then resolveComps acc cs
    else if c = ".." then
      match acc.dropLast, acc with
      | _, [] => none
      | init, _ :: _ => resolveComps init cs
    else resolveComps (acc ++ [c]) cs

/-- `os.path.relpath(target, start)` over components below a common root:
drop the common prefix, then one `..` per remaining start component. -/
def relpathComps : List String → List String → List String
  | t :: ts, s :: ss =>
    if t = s then relpathComps ts ss
    else (s :: ss).map (fun _ => "..") ++ (t :: ts)
  | ts, ss => ss.map (fun _ => "..") ++ ts

/-- `re.search(prefix + r"(\d+)\.", filename)`: find the first position where
`prefix` is followed by one or more digits and then a literal dot, returning
the digits' value. -/
def searchNumAfter (pre : String) (filename : String) : Option Nat :=
  go filename.data
where
  matchAt (cs : List Char) : Option Nat :=
    if listIsPref pre.data cs then
      let rest := cs.drop pre.data.length
      let digits := rest.takeWhile Char.isDigit
      match digits, rest.drop digits.length with
      | _ :: _, '.' :: _ => decDigits? digits
      | _, _ => none
    else none
  go : List Char → Option Nat
    | [] => matchAt []
    | c :: cs =>
      match matchAt (c :: cs) with
      | some n => some n
      | none => go cs

/-! ## Data model

A `SourcePkg` is one extracted source package: the files it contains
(paths relative to the extraction root, `/`-joined), the parsed pieces of
`ppt/presentation.xml` and its `.rels`, every part's `.rels` sidecar
(`ppt/`-relative sidecar path, parsed entries), and its
`[Content_Types].xml`. -/

/-- `dict.get` on an association list: the first binding for the key. -/
def lookupA {α β : Type} [DecidableEq α] : List (α × β) → α → Option β
  | [], _ => none
  | (k', v) :: rest, k => if k' = k then some v else lookupA rest k

/-- One `<Relationship>` entry (the X is to avoid clashing with relation types). -/
structure XRel where
  id : String
  type : String
  target : String
deriving DecidableEq, Repr

/-- A parsed `[Content_Types].xml`: `Default` entries (extension, type) and
`Override` entries (part name, type), in document order. -/
structure CTDoc where
  defaults : List (String × String)
  overrides : List (String × String)
deriving DecidableEq, Repr

/-- An extracted source package. -/
structure SourcePkg where
  /-- Every file in the extraction, path relative to the extraction root. -/
  files : List String
  /-- The `r:id` of each `<p:sldId>` in `<p:sldIdLst>` in document order;
  `none` when `presentation.xml` has no `<p:sldIdLst>` element. -/
  sldIdLst : Option (List String)
  /-- The `(id, r:id)` of each `<p:sldMasterId>`; `none` when the element is
  absent. -/
  masterIdLst : Option (List (Nat × String))
  /-- Entries of `ppt/_rels/presentation.xml.rels`. -/
  presRels : List XRel
  /-- Parsed sidecars: `ppt/`-relative sidecar path to its entries.  A path
  missing here is a missing sidecar file. -/
  relsOf : List (String × List XRel)
  /-- Parsed `[Content_Types].xml` (empty when the file is missing, as
  `_load_content_types` returns empty dicts then). -/
  ctDoc : CTDoc
deriving DecidableEq, Repr

/-- The `ppt/`-relative paths of the files under `ppt/`. -/
def SourcePkg.pptParts (src : SourcePkg) : List String :=
  src.files.filterMap (fun f =>
    if strStarts "ppt/" f then some (strDrop f 4) else none)

/-- `source_full_path.exists()` for a path interpreted below `ppt/`:
resolve it against the extraction root and look the result up among the
extracted files. -/
def existsInSource (src : SourcePkg) (partPath : String) : Bool :=
  match resolveComps ["ppt"] (splitPath partPath) with
  | some q => src.files.contains (joinPath q)
  | none => false

/-- Relationship `Type` URIs used literally by `_process_slides`. -/
def slideRelType : String :=
  "http://schemas.openxmlformats.org/officeDocument/2006/relationships/slide"

/-- The `slideMaster` relationship type URI. -/
def masterRelType : String :=
  "http://schemas.openxmlformats.org/officeDocument/2006/relationships/slideMaster"

/-- `_get_source_slide_part`: resolve a 1-based slide index to the verbatim
`Target` of the matching relationship of the source's presentation part.
`none` stands for every path the code answers `None` on: missing
`presentation.xml`, missing `<p:sldIdLst>`, index out of range, or no
relationship carrying the slide's `r:id`.  (The code parses
`presentation.xml.rels` unconditionally after finding the slide; a missing
sidecar there raises and aborts the merge — well-formedness hypotheses on
the theorems keep the embedding inside the non-raising region.) -/
def getSourceSlidePart (src : SourcePkg) (slideIndex : Int) : Option String :=
  if ¬ src.files.contains "ppt/presentation.xml" then none
  else
    match src.sldIdLst with
    | none => none
    | some slides =>
      if slideIndex > (slides.length : Int) ∨ slideIndex < 1 then none
      else
        match slides.get? (slideIndex - 1).toNat with
        | none => none
        | some rId =>
          (src.presRels.find? (fun r => r.id = rId)).map (fun r => r.target)

/-- `_get_source_content_type`: explicit `Override` lookup by the candidate
part names `/ppt/{p}`, `/{p}`, `p`, else `Default` by lowercased extension.
Defaults were stored with lowercased extension keys by
`_load_content_types`. -/
def getSourceContentType (src : SourcePkg) (partPath : String) : Option String :=
  let overrides := src.ctDoc.overrides
  let defaults := src.ctDoc.defaults.map (fun d => (lowerStr d.1, d.2))
  match lookupA overrides ("/ppt/" ++ partPath) with
  | some ct => some ct
  | none =>
    match lookupA overrides ("/" ++ partPath) with
    | some ct => some ct
    | none =>
      match lookupA overrides partPath with
      | some ct => some ct
      | none => lookupA defaults (extKey partPath)

/-- `_get_relationship_target_type`: classify a relationship target by
substring tests on the `Type` URI, falling back to extension heuristics. -/
def getRelationshipTargetType (typeStr targetPath : String) : String :=
  if containsSub "slideLayout" typeStr then "slideLayouts"
  else if containsSub "slideMaster" typeStr then "slideMasters"
  else if containsSub "theme" typeStr then "theme"
  else if containsSub "image" typeStr then "media"
  else if containsSub "video" typeStr then "media"
  else if containsSub "audio" typeStr then "media"
  else if containsSub "media" typeStr then "media"
  else if containsSub "slide" typeStr then "slides"
  else
    let e := lowerStr (pySuffix targetPath)
    if e ∈ [".jpg", ".jpeg", ".png", ".gif", ".bmp", ".svg", ".tiff", ".ico"]
      then "media"
    else if e ∈ [".mp4", ".avi", ".mov", ".wmv", ".m4v"] then "media"
    else if e ∈ [".mp3", ".wav", ".wma", ".m4a"] then "media"
    else "unknown"

/-! ## The mutable merge state

`MergeState` is the slice of `PPTXMerger` instance state touched by
`_import_part` / `_process_relationships`: the import cache, the collected
content types, the per-category counters, the files of the destination
working tree (work-root-relative `/`-joined paths), the parsed `.rels`
sidecars of the working tree (`ppt/`-relative sidecar path to entries,
seeded from the base copy, overwritten by `tree.write`), and the working
tree's `[Content_Types].xml`. -/
structure MergeState where
  importedParts : List ((String × String) × String)
  importedContentTypes : List (String × String)
  nextIds : String → Nat
  workFiles : List String
  workRels : List (String × List XRel)
  ctDoc : CTDoc

/-- Add a file path to the working tree (copies overwrite, so a present
path stays put). -/
def addFile (fs : List String) (f : String) : List String :=
  if fs.contains f then fs else fs ++ [f]

/-- `dict.__setitem__` on an association list: overwrite the first binding
or append a new one. -/
def setAssoc {α β : Type} [DecidableEq α] : List (α × β) → α → β → List (α × β)
  | [], k, v => [(k, v)]
  | (k', v') :: rest, k, v =>
    if k' = k then (k', v) :: rest else (k', v') :: setAssoc rest k v

/-- Bump one category counter to a given value. -/
def setId (f : String → Nat) (k : String) (v : Nat) : String → Nat :=
  fun k' => if k' = k then v else f k'

/-! ## `_import_part` and `_process_relationships`

`_process_relationships` is the loop over a part's relationship entries; it
is parameterised by the import function `imp` so the pair can be written
without mutual recursion (`_import_part` instantiates `imp` with itself at
one less fuel).  Fuel bounds the import recursion depth only; a later
theorem exhibits a bound at which it never runs out. -/

/-- The loop body of `_process_relationships`: walk the source sidecar's
entries, resolve each `Target` against the source extraction, import the
target, and collect the entry with its `Target` rewritten relative to the
new part's directory; entries whose target cannot be mapped below `ppt/`
are kept verbatim (the code `continue`s without touching them).  At the end
the rewritten sidecar is written next to the new part. -/
def processRelListF
    (imp : MergeState → String → String → Option (MergeState × String))
    (oldPartPath newPartPath : String) :
    List XRel → List XRel → MergeState → Option MergeState
  | [], acc, st =>
    let newRelsKey :=
      joinPath (parentComps newPartPath ++ ["_rels", pathName newPartPath ++ ".rels"])
    some { st with
      workFiles := addFile st.workFiles ("ppt/" ++ newRelsKey),
      workRels := setAssoc st.workRels newRelsKey acc }
  | r :: rs, acc, st =>
    let targetType := getRelationshipTargetType r.type r.target
    let resolved :=
      if strStarts "/" r.target then
        resolveComps [] (splitPath (lstripSlash r.target))
      else
        resolveComps ("ppt" :: parentComps oldPartPath) (splitPath r.target)
    match resolved with
    | some ("ppt" :: rest) =>
      let targetRel := if rest = [] then "." else joinPath rest
      match imp st targetRel targetType with
      | none => none
      | some (st', newTargetRel) =>
        let newTargetFull := "ppt" :: splitPath newTargetRel
        let newPartDir := "ppt" :: parentComps newPartPath
        let relTarget := joinPath (relpathComps newTargetFull newPartDir)
        processRelListF imp oldPartPath newPartPath rs
          (acc ++ [{ r with target := relTarget }]) st'
    | _ => processRelListF imp oldPartPath newPartPath rs (acc ++ [r]) st

/-- `part_path[1:]` when the path starts with `/`, as `_import_part` does
before anything else. -/
def stripLead (p : String) : String :=
  if strStarts "/" p then strDrop p 1 else p

/-- The counter key a category consumes: `media` and `unknown` use their own
buckets, everything else uses `part_type.rstrip('s')`. -/
def categoryKey (t : String) : String :=
  if t = "media" then "media" else if t = "unknown" then "unknown" else rstripEss t

/-- The counters after one allocation for category `t`. -/
def allocIds (st : MergeState) (t : String) : String → Nat :=
  setId st.nextIds (categoryKey t) (st.nextIds (categoryKey t) + 1)

/-- The fresh `ppt/`-relative name `_import_part` allocates: sequential
`media/image{N}`, `other/{stem}_{N}` for unrecognized categories, else
`{category}/{prefix}{N}{ext}`. -/
def allocPath (st : MergeState) (partPath partType : String) : String :=
  let ext := pySuffix partPath
  if partType = "media" then
    "media/image" ++ toString (st.nextIds "media") ++ ext
  else if partType = "unknown" then
    "other/" ++ pyStem partPath ++ "_" ++ toString (st.nextIds "unknown") ++ ext
  else
    partType ++ "/" ++ rstripEss partType ++ toString (st.nextIds (rstripEss partType)) ++ ext

/-- The copy-and-record step of `_import_part` once the source bytes are
known to exist: add the copied file to the working tree, append the cache
binding (the key is absent here — we are under the lookup-miss branch — so
the dict assignment appends a fresh binding), and record the source's
declared content type under the new part name when the source declares
one. -/
def copyRecord (src : SourcePkg) (srcId : String) (st : MergeState)
    (partPath newPartPath : String) : MergeState :=
  let st2 := { st with
    workFiles := addFile st.workFiles ("ppt/" ++ newPartPath),
    importedParts := st.importedParts ++ [((srcId, partPath), newPartPath)] }
  match getSourceContentType src partPath with
  | some ct =>
    { st2 with
      importedContentTypes :=
        setAssoc st2.importedContentTypes ("/ppt/" ++ newPartPath) ct }
  | none => st2

/-- `_import_part`.  Steps, in source order: strip one leading `/`; return a
cached mapping immediately; allocate the new name (consuming a counter
*before* any existence check); if the source bytes are missing return the
original path unchanged, leaving the counter consumed and the cache
untouched; otherwise copy the part into the working tree, record the cache
entry and the source-declared content type, and for `.xml` parts process the
relationship sidecar before returning.  The two `exists()` probes of the
code (raw then resolved) collapse into one resolved lookup here. -/
def importPartF : Nat → SourcePkg → String → MergeState → String → String →
    Option (MergeState × String)
  | 0, _, _, _, _, _ => none
  | fuel + 1, src, srcId, st, partPath0, partType =>
    let partPath := stripLead partPath0
    match lookupA st.importedParts (srcId, partPath) with
    | some q => some (st, q)
    | none =>
      let ext := pySuffix partPath
      let st1 : MergeState := { st with nextIds := allocIds st partType }
      let newPartPath := allocPath st partPath partType
      if ¬ existsInSource src partPath then
        some (st1, partPath)
      else
        let st3 := copyRecord src srcId st1 partPath newPartPath
        if ext = ".xml" then
          let oldRelsKey :=
            joinPath (parentComps partPath ++ ["_rels", pathName partPath ++ ".rels"])
          match lookupA src.relsOf oldRelsKey with
          | none => some (st3, newPartPath)
          | some rels =>
            match processRelListF (fun s p t => importPartF fuel src srcId s p t)
                partPath newPartPath rels [] st3 with
            | none => none
            | some st4 => some (st4, newPartPath)
        else some (st3, newPartPath)

/-! ## Base preparation (`_prepare_base` / `_scan_base_content`) -/

/-- One filename's effect on the counters in `_scan_base_content`:
`update_id(prefix, file)` bumps `next_ids[prefix]` to `num+1` when the
filename matches `prefix(\d+)\.` with `num >= next_ids[prefix]`. -/
def scanUpdateId (ids : String → Nat) (pre filename : String) : String → Nat :=
  match searchNumAfter pre filename with
  | some num => if num ≥ ids pre then setId ids pre (num + 1) else ids
  | none => ids

/-- The `elif` chain of `_scan_base_content` for one file. -/
def scanFileIds (ids : String → Nat) (filename : String) : String → Nat :=
  if strStarts "slideLayout" filename then scanUpdateId ids "slideLayout" filename
  else if strStarts "slideMaster" filename then scanUpdateId ids "slideMaster" filename
  else if strStarts "slide" filename then scanUpdateId ids "slide" filename
  else if strStarts "theme" filename then scanUpdateId ids "theme" filename
  else if strStarts "image" filename ∨ strStarts "media" filename then
    match searchNumAfter "image" filename with
    | some num => if num ≥ ids "media" then setId ids "media" (num + 1) else ids
    | none => ids
  else ids

/-- `_prepare_base` then `_scan_base_content`: copy the base extraction into
the working tree, map every file under `ppt/` to itself in the import cache,
and raise the counters past every numbered filename already present. -/
def prepareBase (base : SourcePkg) (baseId : String) : MergeState :=
  let seeded := base.pptParts.foldl
    (fun (st : MergeState) p =>
      { st with
        nextIds := scanFileIds st.nextIds (pathName p),
        importedParts := st.importedParts ++ [((baseId, p), p)] })
    { importedParts := [], importedContentTypes := [], nextIds := fun _ => 1,
      workFiles := base.files, workRels := base.relsOf, ctDoc := base.ctDoc }
  seeded

/-! ## `_process_slides` -/

/-- The destination presentation being rebuilt: the current `MergeState`
plus the parsed destination `presentation.xml` (`<p:sldIdLst>` entries as
`(id, r:id)` pairs, `<p:sldMasterIdLst>` likewise), its relationships, the
`existing_masters` set and the three ID counters. -/
structure PresState where
  ms : MergeState
  presRels : List XRel
  sldEntries : List (Nat × String)
  masterEntries : List (Nat × String)
  existingMasters : List String
  nextRId : Nat
  nextSlideId : Nat
  nextMasterId : Nat

/-- Python `str.replace("\\", "/")`. -/
def backToFwd (s : String) : String :=
  ofChars (s.data.map (fun c => if c = '\\' then '/' else c))

/-- Seed `existing_masters`: for each `<p:sldMasterId>` the `Target` of
every relationship whose `Id` equals its `r:id` (a Python `set`; the list
here is used only through membership). -/
def seedMasters (entries : List (Nat × String)) (rels : List XRel) : List String :=
  entries.foldl
    (fun acc e =>
      (rels.filter (fun r => r.id = e.2)).foldl
        (fun acc r => if acc.contains r.target then acc else acc ++ [r.target]) acc)
    []

/-- The head of `_process_slides`, up to the request loop: clear the slide
list, drop the slide-typed presentation relationships, compute
`next_rId` from the surviving `rId`-prefixed ids, seed `existing_masters`,
and place `next_master_id_attr` at `2147483648` or one past the largest
existing master id. -/
def initPresState (base : SourcePkg) (ms : MergeState) : PresState :=
  let presRels := base.presRels.filter (fun r => ¬ r.type = slideRelType)
  let existingRIds := presRels.filterMap (fun r =>
    if strStarts "rId" r.id then strToNat? (strDrop r.id 3) else none)
  let nextRId := match existingRIds with
    | [] => 1000
    | x :: xs => (xs.foldl Nat.max x) + 1
  let masterEntries := base.masterIdLst.getD []
  let nextMasterId := match masterEntries.map Prod.fst with
    | [] => 2147483648
    | x :: xs => (xs.foldl Nat.max x) + 1
  { ms := ms
    presRels := presRels
    sldEntries := []
    masterEntries := masterEntries
    existingMasters := seedMasters masterEntries presRels
    nextRId := nextRId
    nextSlideId := 256
    nextMasterId := nextMasterId }

/-- First relationship of a working-tree sidecar whose `Type` URI contains
`sub`, if the sidecar exists. -/
def firstRelTarget (st : MergeState) (sidecar sub : String) : Option String :=
  match lookupA st.workRels sidecar with
  | none => none
  | some rels => (rels.find? (fun r => containsSub sub r.type)).map (fun r => r.target)

/-- The slide → layout → master walk of `_ensure_master_registered`,
following the already-rewritten working-tree sidecars; `none` reproduces
every early `return`: uncached slide, missing sidecar, missing
`slideLayout`/`slideMaster` entry, or a path that leaves `ppt/`. -/
def masterPathOf (st : MergeState) (srcId slidePartPath : String) : Option String :=
  match lookupA st.importedParts (srcId, slidePartPath) with
  | none => none
  | some newSlidePath =>
    let slideSidecar :=
      joinPath (parentComps newSlidePath ++ ["_rels", pathName newSlidePath ++ ".rels"])
    match firstRelTarget st slideSidecar "slideLayout" with
    | none => none
    | some layoutTarget =>
      match resolveComps ("ppt" :: parentComps newSlidePath) (splitPath layoutTarget) with
      | some ("ppt" :: layoutRest) =>
        let layoutSidecar := joinPath (layoutRest.dropLast ++
          ["_rels", (layoutRest.getLastD "") ++ ".rels"])
        match firstRelTarget st layoutSidecar "slideMaster" with
        | none => none
        | some masterTarget =>
          match resolveComps ("ppt" :: layoutRest.dropLast) (splitPath masterTarget) with
          | some ("ppt" :: masterRest) =>
            some (backToFwd (joinPath masterRest))
          | _ => none
      | _ => none

/-- `_ensure_master_registered`: when the slide's master resolves and its
path is not yet in `existing_masters`, append a fresh `slideMaster`
relationship and `<p:sldMasterId>` entry and remember the path. -/
def ensureMasterRegistered (ps : PresState) (srcId slidePartPath : String) : PresState :=
  match masterPathOf ps.ms srcId slidePartPath with
  | none => ps
  | some masterRelPpt =>
    if ps.existingMasters.any (fun e => backToFwd e = masterRelPpt) then ps
    else
      let rId := "rId" ++ toString ps.nextRId
      { ps with
        nextRId := ps.nextRId + 1
        presRels := ps.presRels ++ [⟨rId, masterRelType, masterRelPpt⟩]
        masterEntries := ps.masterEntries ++ [(ps.nextMasterId, rId)]
        nextMasterId := ps.nextMasterId + 1
        existingMasters := ps.existingMasters ++ [masterRelPpt] }

/-- Fuel that a later theorem proves sufficient for any import from `src`:
one unit per part below `ppt/` plus two. -/
def importFuel (src : SourcePkg) : Nat := src.pptParts.length + 2

/-- The skip test of the request loop: `if not slide_part_path: continue`
merges the unresolved case and an empty-string `Target` (both falsy). -/
def resolveReq (sources : String → SourcePkg) (req : String × Int) :
    Option String :=
  match getSourceSlidePart (sources req.1) req.2 with
  | none => none
  | some slidePartPath =>
    if slidePartPath = "" then none else some slidePartPath

/-- Append the slide relationship and `<p:sldId>` entry for an imported
slide, consuming one relationship id and one slide id. -/
def appendSlideEntry (ps : PresState) (newSlidePart : String) : PresState :=
  { ps with
    nextRId := ps.nextRId + 1
    presRels := ps.presRels ++
      [⟨"rId" ++ toString ps.nextRId, slideRelType, newSlidePart⟩]
    sldEntries := ps.sldEntries ++ [(ps.nextSlideId, "rId" ++ toString ps.nextRId)]
    nextSlideId := ps.nextSlideId + 1 }

/-- One iteration of the request loop of `_process_slides`: resolve the
slide in its own source (a falsy result — `None` or the empty string — is
skipped with a warning), import it, register its master, then append the
slide relationship and `<p:sldId>` entry. -/
def processOneSlide (sources : String → SourcePkg) (ps : PresState)
    (req : String × Int) : Option PresState :=
  match resolveReq sources req with
  | none => some ps
  | some slidePartPath =>
    match importPartF (importFuel (sources req.1)) (sources req.1) req.1
        ps.ms slidePartPath "slides" with
    | none => none
    | some (ms', newSlidePart) =>
      some (appendSlideEntry
        (ensureMasterRegistered { ps with ms := ms' } req.1 slidePartPath)
        newSlidePart)

/-- The tail of `_update_content_types`: guarantee the presentation part's
own `Override`. -/
def ensurePresOverride (d : CTDoc) : CTDoc :=
  if (d.overrides.map Prod.fst).contains "/ppt/presentation.xml" then d
  else { d with overrides := d.overrides ++
    [("/ppt/presentation.xml",
      "application/vnd.openxmlformats-officedocument.presentationml.presentation.main+xml")] }

/-- `_update_content_types`: append an `Override` for each collected part
name not already present as an `Override` (`Default` entries are never
consulted), then guarantee the presentation part's own `Override`. -/
def updateContentTypes (doc : CTDoc) (imported : List (String × String)) : CTDoc :=
  ensurePresOverride (imported.foldl
    (fun (d : CTDoc) pct =>
      if (d.overrides.map Prod.fst).contains pct.1 then d
      else { d with overrides := d.overrides ++ [pct] })
    doc)

/-- `_process_slides` end to end: build the initial destination
presentation state, fold the request loop, then finalize the content
types. -/
def processSlides (sources : String → SourcePkg) (baseId : String)
    (reqs : List (String × Int)) : Option PresState :=
  let base := sources baseId
  let ms0 := prepareBase base baseId
  let ps0 := initPresState base ms0
  match reqs.foldlM (processOneSlide sources) ps0 with
  | none => none
  | some ps =>
    some { ps with ms := { ps.ms with
      ctDoc := updateContentTypes ps.ms.ctDoc ps.ms.importedContentTypes } }

/-! ## The top-level `merge()` -/

/-- Filesystem-visible effects of a merge, in order: extracting one source
into scratch, copying the base extraction into the working tree, and
writing the output package (its entry list attached). -/
inductive MergeEffect
  | extractSource (sourceId : String)
  | copyBaseTree (sourceId : String)
  | writeOutput (entries : List String)
deriving DecidableEq, Repr

/-- Fatal errors of a merge session.  `configurationError` is the
"no slides requested" failure — `raise ValueError("No slides to merge")`
in the code, named after the spec's error taxonomy; `fatalError` stands
for any other uncaught exception (malformed skeleton, exhausted fuel),
which likewise aborts before an output file is produced. -/
inductive MergeError
  | configurationError
  | fatalError
deriving DecidableEq, Repr

/-- Distinct source ids in first-occurrence order — the iteration order of
`self.source_map` (a dict keyed by first `add_slide` appearance). -/
def firstOcc : List String → List String
  | [] => []
  | x :: xs => x :: (firstOcc xs).filter (fun y => ¬ y = x)

/-- `_repackage`: the output archive holds exactly the working-tree files. -/
def repackage (st : MergeState) : List String := st.workFiles

/-- `merge()`: the guard `if not self.slides: raise ValueError(...)` comes
first, before `_extract_sources`, `_prepare_base`, `_process_slides` and
`_repackage`; an empty request list therefore produces the configuration
error with an empty effect trace (the `finally` cleanup removes only the
scratch directories the constructor created, which live outside the
modelled artifacts).  `sources` is the extraction oracle: what
`_extract_sources` leaves on disk for each source id. -/
def mergeModel (sources : String → SourcePkg) (slides : List (String × Int)) :
    Except MergeError PresState × List MergeEffect :=
  match slides with
  | [] => (Except.error MergeError.configurationError, [])
  | (baseId, _) :: _ =>
    let extracts := (firstOcc (slides.map Prod.fst)).map MergeEffect.extractSource
    match processSlides sources baseId slides with
    | none =>
      (Except.error MergeError.fatalError,
       extracts ++ [MergeEffect.copyBaseTree baseId])
    | some out =>
      (Except.ok out,
       extracts ++ [MergeEffect.copyBaseTree baseId,
                    MergeEffect.writeOutput (repackage out.ms)])

/-! ## Association-list and counting lemmas -/

theorem lookupA_append_some {α β : Type} [DecidableEq α] (l₁ l₂ : List (α × β))
    (k : α) (v : β) (h : lookupA l₁ k = some v) : lookupA (l₁ ++ l₂) k = some v := by
  induction l₁ with
  | nil => simp [lookupA] at h
  | cons e rest ih =>
    rcases e with ⟨k', v'⟩
    by_cases hk : k' = k
    · simp [lookupA, hk] at h ⊢
      exact h
    · simp [lookupA, hk] at h ⊢
      exact ih h

theorem lookupA_append_none {α β : Type} [DecidableEq α] (l₁ l₂ : List (α × β))
    (k : α) (h : lookupA l₁ k = none) : lookupA (l₁ ++ l₂) k = lookupA l₂ k := by
  induction l₁ with
  | nil => simp
  | cons e rest ih =>
    rcases e with ⟨k', v'⟩
    by_cases hk : k' = k
    · simp [lookupA, hk] at h
    · simp [lookupA, hk] at h ⊢
      exact ih h

theorem lookupA_isSome_iff_mem {α β : Type} [DecidableEq α] (l : List (α × β)) (k : α) :
    (lookupA l k).isSome ↔ k ∈ l.map Prod.fst := by
  induction l with
  | nil => simp [lookupA]
  | cons e rest ih =>
    rcases e with ⟨k', v'⟩
    by_cases hk : k' = k
    · subst hk
      simp [lookupA]
    · simp only [lookupA, List.map_cons, List.mem_cons]
      rw [if_neg hk, ih]
      exact ⟨fun h => Or.inr h, fun h => h.elim (fun h1 => absurd h1.symm hk) id⟩

theorem setAssoc_keys {α β : Type} [DecidableEq α] (l : List (α × β)) (k k' : α) (v : β) :
    k' ∈ (setAssoc l k v).map Prod.fst ↔ k' ∈ l.map Prod.fst ∨ k' = k := by
  induction l with
  | nil => simp [setAssoc]
  | cons e rest ih =>
    rcases e with ⟨k₀, v₀⟩
    by_cases hk : k₀ = k
    · subst hk
      simp [setAssoc]
      tauto
    · simp [setAssoc, hk, ih]
      tauto

theorem countP_lt_of_witness {α : Type} (l : List α) (p q : α → Bool)
    (hmono : ∀ a ∈ l, q a = true → p a = true) (a : α) (ha : a ∈ l)
    (hp : p a = true) (hq : q a = false) : l.countP q < l.countP p := by
  induction l with
  | nil => cases ha
  | cons b rest ih =>
    rcases List.mem_cons.mp ha with hb | hb
    · subst hb
      have h1 : rest.countP q ≤ rest.countP p :=
        List.countP_mono_left (fun x hx => hmono x (List.mem_cons_of_mem _ hx))
      simp [List.countP_cons, hp, hq]
      omega
    · have h1 := ih (fun x hx => hmono x (List.mem_cons_of_mem _ hx)) hb
      have h2 : (if q b then (1 : Nat) else 0) ≤ (if p b then 1 else 0) := by
        by_cases hqb : q b = true
        · simp [hqb, hmono b (List.mem_cons_self _ _) hqb]
        · simp [Bool.eq_false_iff.mpr hqb]
      simp only [List.countP_cons]
      omega

theorem countP_mono_of_impl {α : Type} (l : List α) (p q : α → Bool)
    (hmono : ∀ a ∈ l, q a = true → p a = true) : l.countP q ≤ l.countP p :=
  List.countP_mono_left hmono

/-! ## State growth across imports -/

theorem mem_addFile (fs : List String) (f g : String) (h : g ∈ fs) : g ∈ addFile fs f := by
  unfold addFile
  split
  · exact h
  · exact List.mem_append_left _ h

theorem self_mem_addFile (fs : List String) (f : String) : f ∈ addFile fs f := by
  unfold addFile
  split
  · next h => exact List.mem_of_elem_eq_true h
  · exact List.mem_append_right _ (List.mem_singleton.mpr rfl)

theorem setId_le (f : String → Nat) (k : String) (c : String) :
    f c ≤ setId f k (f k + 1) c := by
  unfold setId
  split
  · next h => subst h; omega
  · exact Nat.le_refl _

/-- Monotone evolution of the merge state across one import from `src`
(identified as `srcId`): the cache is only extended, and only with keys of
this source whose bytes exist in the extraction; counters never decrease;
working-tree files and collected content-type keys only grow; the
content-type document is untouched. -/
structure GrowsAt (src : SourcePkg) (srcId : String) (m m' : MergeState) : Prop where
  cache_ext : ∃ l, m'.importedParts = m.importedParts ++ l ∧
    ∀ e ∈ l, e.1.1 = srcId ∧ existsInSource src e.1.2 = true
  ids_le : ∀ c, m.nextIds c ≤ m'.nextIds c
  files_sub : ∀ f ∈ m.workFiles, f ∈ m'.workFiles
  ict_sub : ∀ k ∈ m.importedContentTypes.map Prod.fst,
    k ∈ m'.importedContentTypes.map Prod.fst
  ct_eq : m'.ctDoc = m.ctDoc

theorem GrowsAt_refl (src : SourcePkg) (srcId : String) (m : MergeState) :
    GrowsAt src srcId m m :=
  ⟨⟨[], by simp, by simp⟩, fun _ => Nat.le_refl _, fun _ h => h, fun _ h => h, Eq.refl _⟩

theorem GrowsAt_trans {src : SourcePkg} {srcId : String} {m₁ m₂ m₃ : MergeState}
    (h₁ : GrowsAt src srcId m₁ m₂) (h₂ : GrowsAt src srcId m₂ m₃) :
    GrowsAt src srcId m₁ m₃ := by
  refine ⟨?_, ?_, ?_, ?_, ?_⟩
  · obtain ⟨l₁, he₁, hp₁⟩ := h₁.cache_ext
    obtain ⟨l₂, he₂, hp₂⟩ := h₂.cache_ext
    refine ⟨l₁ ++ l₂, by rw [he₂, he₁, List.append_assoc], ?_⟩
    intro e he
    rcases List.mem_append.mp he with h | h
    · exact hp₁ e h
    · exact hp₂ e h
  · exact fun c => Nat.le_trans (h₁.ids_le c) (h₂.ids_le c)
  · exact fun f hf => h₂.files_sub f (h₁.files_sub f hf)
  · exact fun k hk => h₂.ict_sub k (h₁.ict_sub k hk)
  · rw [h₂.ct_eq, h₁.ct_eq]

/-- A cached binding survives any growth. -/
theorem GrowsAt.lookup_stable {src : SourcePkg} {srcId : String}
    {m m' : MergeState} (h : GrowsAt src srcId m m') {k : String × String}
    {v : String} (hk : lookupA m.importedParts k = some v) :
    lookupA m'.importedParts k = some v := by
  obtain ⟨l, he, _⟩ := h.cache_ext
  rw [he]
  exact lookupA_append_some _ _ _ _ hk

/-- A key of this source whose bytes are missing can never become cached. -/
theorem GrowsAt.lookup_none_stable {src : SourcePkg} {srcId : String}
    {m m' : MergeState} (h : GrowsAt src srcId m m') {p : String}
    (hnone : lookupA m.importedParts (srcId, p) = none)
    (hmiss : ¬ existsInSource src p = true) :
    lookupA m'.importedParts (srcId, p) = none := by
  obtain ⟨l, he, hp⟩ := h.cache_ext
  rw [he, lookupA_append_none _ _ _ hnone]
  clear he
  revert hp
  induction l with
  | nil => intro hp; rfl
  | cons e rest ih =>
    intro hp
    rcases e with ⟨⟨sid', p'⟩, v'⟩
    have hk : ¬ ((sid', p') = (srcId, p)) := by
      intro hkk
      obtain ⟨h1, h2⟩ := hp _ (List.mem_cons_self _ _)
      rw [Prod.mk.injEq] at hkk
      exact hmiss (hkk.2 ▸ h2)
    simp only [lookupA]
    rw [if_neg hk]
    exact ih (fun e he => hp e (List.mem_cons_of_mem _ he))

/-- The relationship loop only grows the state, provided the import
function it recurses through does. -/
theorem grows_processRelListF (src : SourcePkg) (srcId : String)
    (imp : MergeState → String → String → Option (MergeState × String))
    (himp : ∀ s p t s' r, imp s p t = some (s', r) → GrowsAt src srcId s s') :
    ∀ (rels : List XRel) (old new : String) (acc : List XRel) (st st' : MergeState),
      processRelListF imp old new rels acc st = some st' → GrowsAt src srcId st st' := by
  intro rels
  induction rels with
  | nil =>
    intro old new acc st st' h
    simp only [processRelListF, Option.some.injEq] at h
    subst h
    exact ⟨⟨[], by simp, by simp⟩, fun _ => Nat.le_refl _,
      fun f hf => mem_addFile _ _ _ hf, fun _ hk => hk, Eq.refl _⟩
  | cons r rs ih =>
    intro old new acc st st' h
    simp only [processRelListF] at h
    split at h
    · split at h
      · exact absurd h (by simp)
      · next st₂ rr heq =>
        exact GrowsAt_trans (himp _ _ _ _ _ heq) (ih _ _ _ _ _ h)
    · exact ih _ _ _ _ _ h

/-- Allocation followed by copy-and-record grows the state (given the
existence that guards the copy). -/
theorem grows_allocCopy (src : SourcePkg) (srcId : String) (st : MergeState)
    (pp npp t : String) (hex : existsInSource src pp = true) :
    GrowsAt src srcId st
      (copyRecord src srcId { st with nextIds := allocIds st t } pp npp) := by
  unfold copyRecord
  constructor
  case cache_ext =>
    refine ⟨[((srcId, pp), npp)], ?_, ?_⟩
    · split <;> rfl
    · intro e he
      rcases List.mem_singleton.mp he with h
      subst h
      exact ⟨rfl, hex⟩
  case ids_le =>
    intro c
    have : allocIds st t c = setId st.nextIds (categoryKey t) (st.nextIds (categoryKey t) + 1) c := rfl
    split <;> exact setId_le st.nextIds (categoryKey t) c
  case files_sub =>
    intro f hf
    split <;> exact mem_addFile _ _ _ hf
  case ict_sub =>
    intro k hk
    split
    · simp only [setAssoc_keys]
      exact Or.inl hk
    · exact hk
  case ct_eq => split <;> rfl

/-- `_import_part` only grows the state. -/
theorem grows_importPartF :
    ∀ (fuel : Nat) (src : SourcePkg) (srcId : String) (st : MergeState)
      (p t : String) (st' : MergeState) (r : String),
      importPartF fuel src srcId st p t = some (st', r) → GrowsAt src srcId st st' := by
  intro fuel
  induction fuel with
  | zero =>
    intro src srcId st p t st' r h
    exact absurd h (by simp [importPartF])
  | succ fuel ih =>
    intro src srcId st p t st' r h
    simp only [importPartF] at h
    split at h
    · simp only [Option.some.injEq, Prod.mk.injEq] at h
      obtain ⟨h1, h2⟩ := h
      subst h1
      exact GrowsAt_refl _ _ _
    · next hmiss =>
      split at h
      · -- missing bytes: only the counter advanced
        next hnex =>
        simp only [Option.some.injEq, Prod.mk.injEq] at h
        obtain ⟨h1, h2⟩ := h
        subst h1
        refine ⟨⟨[], by simp, by simp⟩, ?_, fun f hf => hf, fun k hk => hk, Eq.refl _⟩
        intro c
        exact setId_le st.nextIds (categoryKey t) c
      · next hex =>
        have hex' : existsInSource src (stripLead p) = true := by
          revert hex
          by_cases hb : existsInSource src (stripLead p) = true <;> simp [hb]
        have hgrow := grows_allocCopy src srcId st (stripLead p)
          (allocPath st (stripLead p) t) t hex'
        split at h
        · -- xml part
          split at h
          · simp only [Option.some.injEq, Prod.mk.injEq] at h
            obtain ⟨h1, h2⟩ := h
            subst h1
            exact hgrow
          · split at h
            · exact absurd h (by simp)
            · next st4 heq4 =>
              simp only [Option.some.injEq, Prod.mk.injEq] at h
              obtain ⟨h1, h2⟩ := h
              subst h1
              exact GrowsAt_trans hgrow
                (grows_processRelListF src srcId _ (fun s pp tt s' rr hh => ih src srcId s pp tt s' rr hh)
                  _ _ _ _ _ _ heq4)
        · simp only [Option.some.injEq, Prod.mk.injEq] at h
          obtain ⟨h1, h2⟩ := h
          subst h1
          exact hgrow

/-! ## Counter lemmas -/

theorem copyRecord_nextIds (src : SourcePkg) (srcId : String) (st : MergeState)
    (pp npp : String) : (copyRecord src srcId st pp npp).nextIds = st.nextIds := by
  unfold copyRecord
  split <;> rfl

theorem allocIds_at_key (st : MergeState) (t : String) :
    allocIds st t (categoryKey t) = st.nextIds (categoryKey t) + 1 := by
  unfold allocIds setId
  simp

theorem scanUpdateId_le (ids : String → Nat) (pre f c : String) :
    ids c ≤ scanUpdateId ids pre f c := by
  unfold scanUpdateId
  cases heq : searchNumAfter pre f with
  | none => exact Nat.le_refl _
  | some num =>
    show ids c ≤ (if num ≥ ids pre then setId ids pre (num + 1) else ids) c
    by_cases hge : num ≥ ids pre
    · rw [if_pos hge]
      unfold setId
      by_cases hc : c = pre
      · subst hc
        simp
        omega
      · simp [hc]
    · rw [if_neg hge]

theorem scanFileIds_le (ids : String → Nat) (filename c : String) :
    ids c ≤ scanFileIds ids filename c := by
  unfold scanFileIds
  split
  · exact scanUpdateId_le ids _ filename c
  · split
    · exact scanUpdateId_le ids _ filename c
    · split
      · exact scanUpdateId_le ids _ filename c
      · split
        · exact scanUpdateId_le ids _ filename c
        · split
          · cases heq : searchNumAfter "image" filename with
            | none => exact Nat.le_refl _
            | some num =>
              show ids c ≤ (if num ≥ ids "media" then setId ids "media" (num + 1) else ids) c
              by_cases hge : num ≥ ids "media"
              · rw [if_pos hge]
                unfold setId
                by_cases hc : c = "media"
                · subst hc
                  simp
                  omega
                · simp [hc]
              · rw [if_neg hge]
          · exact Nat.le_refl _

/-- On a cache miss the consumed counter value is strictly below every later
value of that counter. -/
theorem import_miss_counter_advance (fuel : Nat) (src : SourcePkg) (srcId : String)
    (st : MergeState) (p t : String) (st' : MergeState) (r : String)
    (h : importPartF (fuel + 1) src srcId st p t = some (st', r))
    (hnone : lookupA st.importedParts (srcId, stripLead p) = none) :
    st.nextIds (categoryKey t) + 1 ≤ st'.nextIds (categoryKey t) := by
  simp only [importPartF, hnone] at h
  split at h
  · next hnex =>
    simp only [Option.some.injEq, Prod.mk.injEq] at h
    obtain ⟨h1, _⟩ := h
    subst h1
    simp [allocIds_at_key]
  · next hex =>
    split at h
    · split at h
      · simp only [Option.some.injEq, Prod.mk.injEq] at h
        obtain ⟨h1, _⟩ := h
        subst h1
        rw [copyRecord_nextIds]
        simp [allocIds_at_key]
      · split at h
        · exact absurd h (by simp)
        · next st4 heq4 =>
          simp only [Option.some.injEq, Prod.mk.injEq] at h
          obtain ⟨h1, _⟩ := h
          subst h1
          have hg := grows_processRelListF src srcId _
            (fun s pp tt s' rr hh => grows_importPartF fuel src srcId s pp tt s' rr hh)
            _ _ _ _ _ _ heq4
          have h3 := hg.ids_le (categoryKey t)
          rw [copyRecord_nextIds] at h3
          have h3' : allocIds st t (categoryKey t) ≤ st4.nextIds (categoryKey t) := h3
          have h4 : allocIds st t (categoryKey t) = st.nextIds (categoryKey t) + 1 :=
            allocIds_at_key st t
          omega
    · simp only [Option.some.injEq, Prod.mk.injEq] at h
      obtain ⟨h1, _⟩ := h
      subst h1
      rw [copyRecord_nextIds]
      simp [allocIds_at_key]

/-- The degraded fallback: a miss on a part whose bytes are absent returns
the original (slash-stripped) path, consumes the counter, and caches
nothing. -/
theorem import_missing_bytes_fallback (fuel : Nat) (src : SourcePkg) (srcId : String)
    (st : MergeState) (p t : String)
    (hnone : lookupA st.importedParts (srcId, stripLead p) = none)
    (hnex : existsInSource src (stripLead p) = false) :
    importPartF (fuel + 1) src srcId st p t =
      some ({ st with nextIds := allocIds st t }, stripLead p) := by
  simp only [importPartF, hnone]
  split
  · rfl
  · next hex =>
    rw [hnex] at hex
    simp at hex

/-! ## Claim C4 -/

/-- C4: `merge()` with an empty slide-request list raises the
configuration error (`ValueError("No slides to merge")`) immediately from
the created state: the effect trace is empty — no source extraction, no
base copy, and no write to the output path ever happens. -/
theorem merge_empty_requests_configuration_error (sources : String → SourcePkg) :
    mergeModel sources [] =
      (Except.error MergeError.configurationError, ([] : List MergeEffect)) :=
  rfl

/-! ## Claim C2 -/

/-- A merge state with fresh counters and nothing imported. -/
def emptyState : MergeState :=
  { importedParts := [], importedContentTypes := [], nextIds := fun _ => 1,
    workFiles := [], workRels := [], ctDoc := ⟨[], []⟩ }

/-- A source package with no files at all. -/
def emptySrc : SourcePkg :=
  { files := [], sldIdLst := none, masterIdLst := none, presRels := [],
    relsOf := [], ctDoc := ⟨[], []⟩ }

/-- C2 (amended): once `(source, original path)` is in the ImportCache, a
further `import_part` call with that key returns the cached destination
path immediately with the state untouched — no byte copy, no counter
allocation, no relationship rewriting; this is the at-most-once-per-key
copy guarantee for every part whose first import succeeded. -/
theorem import_part_cache_hit_no_op (fuel : Nat) (src : SourcePkg) (srcId : String)
    (st : MergeState) (p t q : String)
    (h : lookupA st.importedParts (srcId, stripLead p) = some q) :
    importPartF (fuel + 1) src srcId st p t = some (st, q) := by
  simp [importPartF, h]

/-- The cached state of the C2 witness. -/
def c2St : MergeState :=
  { emptyState with
    importedParts := [(("s", "slides/slide1.xml"), "slides/slide1.xml")] }

/-- Witness for C2 (amended) at a concrete cached key. -/
theorem import_part_cache_hit_no_op_witness :
    lookupA c2St.importedParts ("s", stripLead "slides/slide1.xml") =
        some "slides/slide1.xml" ∧
    importPartF 3 emptySrc "s" c2St "slides/slide1.xml" "slides" =
        some (c2St, "slides/slide1.xml") :=
  ⟨by decide,
   import_part_cache_hit_no_op 2 emptySrc "s" c2St "slides/slide1.xml" "slides"
     "slides/slide1.xml" (by decide)⟩

/-- A source whose `slides/slide1.xml` bytes are missing on disk. -/
def c2xSrc : SourcePkg :=
  { files := [], sldIdLst := none, masterIdLst := none, presRels := [],
    relsOf := [], ctDoc := ⟨[], []⟩ }

/-- State after the first failed import attempt of the C2 counterexample. -/
def c2xSt1 : MergeState := { emptyState with nextIds := allocIds emptyState "slides" }

/-- C2 counterexample: for a key whose part bytes are missing in the source
extraction, the first `import_part` call returns the original path without
caching it, and a second call with the same key allocates a *fresh counter
value* again (the `slide` counter goes 1 → 2 → 3) instead of returning
from the ImportCache — refuting the claim's "a second call with the same
key returns the same new path immediately from the ImportCache without …
allocating a fresh counter value" for such keys. -/
theorem import_part_second_call_allocates_again :
    importPartF 3 c2xSrc "s" emptyState "slides/slide1.xml" "slides" =
        some (c2xSt1, "slides/slide1.xml") ∧
    importPartF 3 c2xSrc "s" c2xSt1 "slides/slide1.xml" "slides" =
        some ({ c2xSt1 with nextIds := allocIds c2xSt1 "slides" },
          "slides/slide1.xml") ∧
    lookupA c2xSt1.importedParts ("s", "slides/slide1.xml") = none ∧
    emptyState.nextIds "slide" = 1 ∧
    c2xSt1.nextIds "slide" = 2 ∧
    allocIds c2xSt1 "slides" "slide" = 3 :=
  ⟨rfl, rfl, rfl, rfl, rfl, rfl⟩

/-! ## Claim C8 -/

/-- C8: per-category counters are monotonically non-decreasing throughout a
session — across the base scan and across every `_import_part` call — and a
counter value consumed by an import attempt is never issued again: after
any cache miss the category's counter strictly exceeds the consumed value
in the resulting state (and, counters being monotone, forever after).  When
the attempt fails because the part's bytes are missing in the source
extraction, the call returns the original (slash-stripped) path unchanged
as the degraded fallback, with the counter still consumed and the cache not
extended. -/
theorem counters_monotone_consumed_never_reissued :
    (∀ (ids : String → Nat) (filename c : String),
       ids c ≤ scanFileIds ids filename c) ∧
    (∀ (fuel : Nat) (src : SourcePkg) (srcId : String) (st : MergeState)
       (p t : String) (st' : MergeState) (r : String),
       importPartF fuel src srcId st p t = some (st', r) →
       (∀ c, st.nextIds c ≤ st'.nextIds c) ∧
       (lookupA st.importedParts (srcId, stripLead p) = none →
         st.nextIds (categoryKey t) + 1 ≤ st'.nextIds (categoryKey t)) ∧
       (lookupA st.importedParts (srcId, stripLead p) = none →
         existsInSource src (stripLead p) = false →
         st' = { st with nextIds := allocIds st t } ∧ r = stripLead p)) := by
  constructor
  · exact scanFileIds_le
  · intro fuel src srcId st p t st' r h
    refine ⟨(grows_importPartF fuel src srcId st p t st' r h).ids_le, ?_, ?_⟩
    · intro hnone
      cases fuel with
      | zero => exact absurd h (by simp [importPartF])
      | succ fuel =>
        exact import_miss_counter_advance fuel src srcId st p t st' r h hnone
    · intro hnone hnex
      cases fuel with
      | zero => exact absurd h (by simp [importPartF])
      | succ fuel =>
        rw [import_missing_bytes_fallback fuel src srcId st p t hnone hnex] at h
        simp only [Option.some.injEq, Prod.mk.injEq] at h
        exact ⟨h.1.symm, h.2.symm⟩

/-- A source for the C8 witness whose one part is missing on disk. -/
def w8Src : SourcePkg :=
  { files := [], sldIdLst := none, masterIdLst := none, presRels := [],
    relsOf := [], ctDoc := ⟨[], []⟩ }

/-- State after the C8 witness's failed import (the counter consumed). -/
def w8St1 : MergeState := { emptyState with nextIds := allocIds emptyState "slides" }

/-- Witness for C8 at a concrete failing import: the counter advanced and
stays advanced. -/
theorem counters_monotone_consumed_never_reissued_witness :
    importPartF 4 w8Src "s" emptyState "slides/slide9.xml" "slides" =
        some (w8St1, "slides/slide9.xml") ∧
    (∀ c, emptyState.nextIds c ≤ w8St1.nextIds c) ∧
    emptyState.nextIds "slide" + 1 ≤ w8St1.nextIds "slide" := by
  have happ := counters_monotone_consumed_never_reissued.2 4 w8Src "s" emptyState
    "slides/slide9.xml" "slides" w8St1 "slides/slide9.xml" rfl
  exact ⟨rfl, happ.1, happ.2.1 (by decide)⟩

/-! ## Path cleanliness and round-trip lemmas (for the termination bound) -/

/-- A path component that survives `resolveComps` unchanged. -/
def cleanComp (c : String) : Bool := !(c == "" || c == "." || c == "..")

/-- All components clean. -/
def cleanComps (l : List String) : Bool := l.all cleanComp

/-- No `/` inside a component (true of everything `splitPath` produces). -/
def noSlash (c : String) : Bool := !(c.data.contains '/')

/-- All components slash-free. -/
def noSlashAll (l : List String) : Bool := l.all noSlash

theorem cleanComp_spec {c : String} (h : cleanComp c = true) :
    ¬ (c = "" ∨ c = ".") ∧ ¬ (c = "..") := by
  unfold cleanComp at h
  simp only [Bool.not_eq_true', Bool.or_eq_false_iff, beq_eq_false_iff_ne] at h
  exact ⟨fun hc => hc.elim h.1.1 h.1.2, h.2⟩

theorem resolveComps_clean (l : List String) :
    ∀ acc, cleanComps l = true → resolveComps acc l = some (acc ++ l) := by
  induction l with
  | nil => intro acc _; simp [resolveComps]
  | cons c cs ih =>
    intro acc hclean
    unfold cleanComps at hclean
    simp only [List.all_cons, Bool.and_eq_true] at hclean
    obtain ⟨h1, h2⟩ := cleanComp_spec hclean.1
    unfold resolveComps
    rw [if_neg h1, if_neg h2]
    rw [ih (acc ++ [c]) hclean.2]
    simp

theorem cleanComps_dropLast {l : List String} (h : cleanComps l = true) :
    cleanComps l.dropLast = true := by
  unfold cleanComps at h ⊢
  rw [List.all_eq_true] at h ⊢
  exact fun c hc => h c (List.dropLast_subset l hc)

theorem noSlashAll_dropLast {l : List String} (h : noSlashAll l = true) :
    noSlashAll l.dropLast = true := by
  unfold noSlashAll at h ⊢
  rw [List.all_eq_true] at h ⊢
  exact fun c hc => h c (List.dropLast_subset l hc)

theorem cleanComps_append {l₁ l₂ : List String} (h₁ : cleanComps l₁ = true)
    (h₂ : cleanComps l₂ = true) : cleanComps (l₁ ++ l₂) = true := by
  unfold cleanComps at h₁ h₂ ⊢
  rw [List.all_eq_true] at h₁ h₂ ⊢
  intro c hc
  rcases List.mem_append.mp hc with h | h
  · exact h₁ c h
  · exact h₂ c h

/-- `resolveComps` output stays clean when its starting directory is. -/
theorem resolveComps_out_clean (l : List String) :
    ∀ acc q, cleanComps acc = true → resolveComps acc l = some q →
      cleanComps q = true := by
  induction l with
  | nil =>
    intro acc q hacc h
    simp only [resolveComps, Option.some.injEq] at h
    subst h
    exact hacc
  | cons c cs ih =>
    intro acc q hacc h
    unfold resolveComps at h
    split at h
    · exact ih acc q hacc h
    · split at h
      · split at h
        · exact absurd h (by simp)
        · exact ih _ q (cleanComps_dropLast hacc) h
      · next h1 h2 =>
        have hc : cleanComp c = true := by
          unfold cleanComp
          simp only [Bool.not_eq_true', Bool.or_eq_false_iff, beq_eq_false_iff_ne]
          constructor
          · constructor
            · intro hx; exact h1 (Or.inl hx)
            · intro hx; exact h1 (Or.inr hx)
          · exact h2
        exact ih _ q (cleanComps_append hacc (by simp [cleanComps, hc])) h

/-- `resolveComps` output stays slash-free when its inputs are. -/
theorem resolveComps_out_noSlash (l : List String) :
    ∀ acc q, noSlashAll acc = true → noSlashAll l = true →
      resolveComps acc l = some q → noSlashAll q = true := by
  induction l with
  | nil =>
    intro acc q hacc _ h
    simp only [resolveComps, Option.some.injEq] at h
    subst h
    exact hacc
  | cons c cs ih =>
    intro acc q hacc hl h
    unfold noSlashAll at hl
    simp only [List.all_cons, Bool.and_eq_true] at hl
    unfold resolveComps at h
    split at h
    · exact ih acc q hacc hl.2 h
    · split at h
      · split at h
        · exact absurd h (by simp)
        · exact ih _ q (noSlashAll_dropLast hacc) hl.2 h
      · refine ih _ q ?_ hl.2 h
        unfold noSlashAll at hacc ⊢
        rw [List.all_eq_true] at hacc ⊢
        intro x hx
        rcases List.mem_append.mp hx with hm | hm
        · exact hacc x hm
        · rw [List.mem_singleton.mp hm]
          exact hl.1

theorem splitChars_ne_nil (l : List Char) : splitChars l ≠ [] := by
  cases l with
  | nil => simp [splitChars]
  | cons c cs =>
    unfold splitChars
    split
    · simp
    · split
      · simp
      · simp

theorem joinChars_splitChars (l : List Char) : joinChars (splitChars l) = l := by
  induction l with
  | nil => rfl
  | cons c cs ih =>
    unfold splitChars
    split
    · next hc =>
      subst hc
      have h1 : splitChars cs ≠ [] := splitChars_ne_nil cs
      rcases hg : splitChars cs with _ | ⟨g, gs⟩
      · exact absurd hg h1
      · rw [hg] at ih
        show joinChars ([] :: g :: gs) = '/' :: cs
        unfold joinChars
        rw [ih]
        simp
    · next hc =>
      rcases hg : splitChars cs with _ | ⟨g, gs⟩
      · exact absurd hg (splitChars_ne_nil cs)
      · rw [hg] at ih
        show joinChars ((c :: g) :: gs) = c :: cs
        cases gs with
        | nil =>
          unfold joinChars at ih ⊢
          rw [← ih]
        | cons g' gs' =>
          unfold joinChars at ih ⊢
          rw [List.cons_append, ih]

theorem splitChars_noSlash (l : List Char) :
    ∀ g ∈ splitChars l, ¬ ('/' ∈ g) := by
  induction l with
  | nil =>
    intro g hg
    simp [splitChars] at hg
    simp [hg]
  | cons c cs ih =>
    intro g hg
    unfold splitChars at hg
    split at hg
    · rcases List.mem_cons.mp hg with h | h
      · simp [h]
      · exact ih g h
    · next hc =>
      rcases hh : splitChars cs with _ | ⟨g', gs'⟩
      · exact absurd hh (splitChars_ne_nil cs)
      · rw [hh] at hg
        rcases List.mem_cons.mp hg with h | h
        · subst h
          intro hmem
          rcases List.mem_cons.mp hmem with h1 | h1
          · exact hc h1.symm
          · exact ih g' (hh ▸ List.mem_cons_self _ _) h1
        · refine ih g ?_
          rw [hh]
          exact List.mem_cons_of_mem _ h

/-- Splitting then joining restores any path string. -/
theorem joinPath_splitPath (s : String) : joinPath (splitPath s) = s := by
  unfold joinPath splitPath
  rw [List.map_map]
  have hmap : (splitChars s.data).map (chars ∘ ofChars) = splitChars s.data := by
    apply List.map_id''
    intro g
    rfl
  rw [hmap, joinChars_splitChars]
  cases s
  rfl

theorem splitPath_ne_nil (s : String) : splitPath s ≠ [] := by
  unfold splitPath
  intro h
  exact splitChars_ne_nil s.data (List.map_eq_nil_iff.mp h)

theorem splitPath_noSlash (s : String) : noSlashAll (splitPath s) = true := by
  unfold noSlashAll splitPath
  rw [List.all_eq_true]
  intro g hg
  obtain ⟨cl, hcl, hfg⟩ := List.mem_map.mp hg
  subst hfg
  unfold noSlash
  simp only [Bool.not_eq_true']
  rw [Bool.eq_false_iff]
  intro hcon
  exact splitChars_noSlash s.data cl hcl (List.mem_of_elem_eq_true hcon)

theorem splitChars_of_noSlash (g : List Char) (h : ¬ ('/' ∈ g)) :
    splitChars g = [g] := by
  induction g with
  | nil => rfl
  | cons c cs ih =>
    unfold splitChars
    have hc : ¬ (c = '/') := fun hc => h (hc ▸ List.mem_cons_self _ _)
    rw [if_neg hc]
    rw [ih (fun hm => h (List.mem_cons_of_mem _ hm))]

theorem splitChars_append_slash (g t : List Char) (h : ¬ ('/' ∈ g)) :
    splitChars (g ++ '/' :: t) = g :: splitChars t := by
  induction g with
  | nil => simp [splitChars]
  | cons c cs ih =>
    have hc : ¬ (c = '/') := fun hc => h (hc ▸ List.mem_cons_self _ _)
    have hih := ih (fun hm => h (List.mem_cons_of_mem _ hm))
    show splitChars (c :: (cs ++ '/' :: t)) = (c :: cs) :: splitChars t
    conv_lhs => unfold splitChars
    rw [if_neg hc, hih]

theorem splitChars_joinChars (gs : List (List Char)) (hne : gs ≠ [])
    (h : ∀ g ∈ gs, ¬ ('/' ∈ g)) : splitChars (joinChars gs) = gs := by
  induction gs with
  | nil => exact absurd rfl hne
  | cons g gs ih =>
    cases gs with
    | nil =>
      show splitChars (joinChars [g]) = [g]
      unfold joinChars
      exact splitChars_of_noSlash g (h g (List.mem_cons_self _ _))
    | cons g' gs' =>
      show splitChars (joinChars (g :: g' :: gs')) = g :: g' :: gs'
      unfold joinChars
      rw [splitChars_append_slash g _ (h g (List.mem_cons_self _ _))]
      rw [ih (by simp) (fun x hx => h x (List.mem_cons_of_mem _ hx))]

theorem str_append_data (a b : String) : (a ++ b).data = a.data ++ b.data := rfl

theorem ofChars_chars (s : String) : ofChars (chars s) = s := by
  cases s
  rfl

/-- Joining then splitting restores any non-empty slash-free component
list. -/
theorem splitPath_joinPath (l : List String) (hne : l ≠ [])
    (h : noSlashAll l = true) : splitPath (joinPath l) = l := by
  unfold splitPath joinPath
  show ((splitChars (ofChars (joinChars (l.map chars))).data).map ofChars) = l
  have hd : (ofChars (joinChars (l.map chars))).data = joinChars (l.map chars) := rfl
  rw [hd]
  rw [splitChars_joinChars (l.map chars) (by simpa using hne) ?hns]
  case hns =>
    intro g hg
    obtain ⟨x, hx, hfx⟩ := List.mem_map.mp hg
    subst hfx
    unfold noSlashAll at h
    rw [List.all_eq_true] at h
    have := h x hx
    unfold noSlash at this
    simp only [Bool.not_eq_true'] at this
    intro hmem
    rw [Bool.eq_false_iff] at this
    exact this (List.elem_eq_true_of_mem hmem)
  rw [List.map_map]
  apply List.map_id''
  intro x
  exact ofChars_chars x

theorem joinChars_cons_ne (g : List Char) (gs : List (List Char)) (h : gs ≠ []) :
    joinChars (g :: gs) = g ++ '/' :: joinChars gs := by
  cases gs with
  | nil => exact absurd rfl h
  | cons g' gs' => rfl

/-- `joinPath ("ppt" :: l)` is `"ppt/" ++ joinPath l` for non-empty `l`. -/
theorem joinPath_ppt_cons (l : List String) (hne : l ≠ []) :
    joinPath ("ppt" :: l) = "ppt/" ++ joinPath l := by
  unfold joinPath
  show ofChars (joinChars (chars "ppt" :: l.map chars)) =
    "ppt/" ++ ofChars (joinChars (l.map chars))
  rw [joinChars_cons_ne _ _ (by simpa using hne)]
  rfl

theorem listIsPref_append {α : Type} [DecidableEq α] (a b : List α) :
    listIsPref a (a ++ b) = true := by
  induction a with
  | nil => rfl
  | cons x xs ih => simp [listIsPref, ih]

/-- A file `ppt/{p}` of the extraction puts `p` among the `ppt/` parts. -/
theorem mem_pptParts (src : SourcePkg) (p : String)
    (h : ("ppt/" ++ p) ∈ src.files) : p ∈ src.pptParts := by
  unfold SourcePkg.pptParts
  rw [List.mem_filterMap]
  refine ⟨"ppt/" ++ p, h, ?_⟩
  have hs : strStarts "ppt/" ("ppt/" ++ p) = true := by
    unfold strStarts
    rw [str_append_data]
    exact listIsPref_append _ _
  rw [if_pos hs]
  unfold strDrop
  rw [str_append_data]
  show some (ofChars (List.drop 4 ("ppt/".data ++ p.data))) = some p
  have hdrop : List.drop 4 ("ppt/".data ++ p.data) = p.data := rfl
  rw [hdrop]
  rw [show ofChars p.data = p from ofChars_chars p]

/-- For a clean path, existence below `ppt/` is file membership of
`ppt/{p}`. -/
theorem existsInSource_clean (src : SourcePkg) (p : String)
    (h : cleanComps (splitPath p) = true) :
    existsInSource src p = true ↔ ("ppt/" ++ p) ∈ src.files := by
  unfold existsInSource
  rw [resolveComps_clean (splitPath p) ["ppt"] h]
  show src.files.contains (joinPath ("ppt" :: splitPath p)) = true ↔ _
  rw [joinPath_ppt_cons _ (splitPath_ne_nil p), joinPath_splitPath p]
  exact List.elem_iff

/-! ## Fuel sufficiency: the termination bound -/

/-- Number of parts of `src` not yet cached for `srcId` — the measure the
memoized depth-first import strictly decreases. -/
def missingCount (src : SourcePkg) (srcId : String) (st : MergeState) : Nat :=
  src.pptParts.countP (fun p => (lookupA st.importedParts (srcId, p)).isNone)

/-- Growth never increases the number of missing parts. -/
theorem missingCount_mono {src : SourcePkg} {srcId : String} {m m' : MergeState}
    (h : GrowsAt src srcId m m') :
    missingCount src srcId m' ≤ missingCount src srcId m := by
  unfold missingCount
  apply countP_mono_of_impl
  intro a _ ha
  simp only [Option.isNone_iff_eq_none] at ha ⊢
  cases hm : lookupA m.importedParts (srcId, a) with
  | none => rfl
  | some v => rw [h.lookup_stable hm] at ha; cases ha

/-- Caching a previously missing `ppt/` part strictly decreases the
measure. -/
theorem missingCount_insert_lt (src : SourcePkg) (srcId : String)
    (st : MergeState) (p v : String) (hp : p ∈ src.pptParts)
    (hnone : lookupA st.importedParts (srcId, p) = none)
    (m' : MergeState)
    (hm' : m'.importedParts = st.importedParts ++ [((srcId, p), v)]) :
    missingCount src srcId m' < missingCount src srcId st := by
  unfold missingCount
  apply countP_lt_of_witness _ _ _ ?mono p hp
  · simp [hnone]
  · rw [hm', lookupA_append_none _ _ _ hnone]
    simp [lookupA]
  case mono =>
    intro a _ ha
    simp only [Option.isNone_iff_eq_none] at ha ⊢
    cases hm : lookupA st.importedParts (srcId, a) with
    | none => rfl
    | some w =>
      rw [hm', lookupA_append_some _ _ _ _ hm] at ha
      cases ha

/-- The paths on which an import is guaranteed to finish within the fuel
bound: either clean (no empty, `.` or `..` component after the leading
slash strip — every path a well-formed package mentions) or pointing at
nothing (the degraded fallback returns immediately). -/
def okPath (src : SourcePkg) (p : String) : Prop :=
  cleanComps (splitPath (stripLead p)) = true ∨
    existsInSource src (stripLead p) = false

instance (src : SourcePkg) (p : String) : Decidable (okPath src p) := by
  unfold okPath
  infer_instance

theorem copyRecord_importedParts (src : SourcePkg) (srcId : String)
    (st : MergeState) (pp npp : String) :
    (copyRecord src srcId st pp npp).importedParts =
      st.importedParts ++ [((srcId, pp), npp)] := by
  unfold copyRecord
  split <;> rfl

/-- A clean slash-free component list joins to a path that does not start
with `/`. -/
theorem strStarts_slash_false (x : String) (xs : List String)
    (hx : ¬ x = "") (hns : noSlash x = true) :
    strStarts "/" (joinPath (x :: xs)) = false := by
  have hdata : ∃ c cc, x.data = c :: cc ∧ ¬ c = '/' := by
    cases hd : x.data with
    | nil =>
      exfalso
      apply hx
      cases x
      simp at hd
      simp [hd]
    | cons c cc =>
      refine ⟨c, cc, rfl, ?_⟩
      intro hc
      unfold noSlash at hns
      simp only [Bool.not_eq_true'] at hns
      rw [Bool.eq_false_iff] at hns
      exact hns (List.elem_eq_true_of_mem (hd ▸ hc ▸ List.mem_cons_self _ _))
  obtain ⟨c, cc, hd, hc⟩ := hdata
  unfold strStarts joinPath
  cases xs with
  | nil =>
    show listIsPref "/".data x.data = false
    rw [hd]
    simp only [listIsPref, Bool.and_eq_false_iff, decide_eq_false_iff_not]
    exact Or.inl (fun h => hc (Eq.symm h))
  | cons y ys =>
    show listIsPref "/".data
      (joinChars (x.data :: (y :: ys).map chars)) = false
    rw [joinChars_cons_ne _ _ (by simp), hd]
    simp only [List.cons_append, listIsPref, Bool.and_eq_false_iff,
      decide_eq_false_iff_not]
    exact Or.inl (fun h => hc (Eq.symm h))

/-- The relationship loop finishes when every import it makes does. -/
theorem suff_processRelListF (src : SourcePkg) (srcId : String)
    (imp : MergeState → String → String → Option (MergeState × String)) (M : Nat)
    (hppt : src.files.contains "ppt" = false)
    (hgrowImp : ∀ s p t s' r, imp s p t = some (s', r) → GrowsAt src srcId s s')
    (hsomeImp : ∀ s p t, missingCount src srcId s ≤ M → okPath src p →
      (imp s p t).isSome) :
    ∀ (rels : List XRel) (old new : String) (acc : List XRel) (st : MergeState),
      cleanComps (parentComps old) = true →
      missingCount src srcId st ≤ M →
      (processRelListF imp old new rels acc st).isSome := by
  intro rels
  induction rels with
  | nil =>
    intro old new acc st _ _
    simp [processRelListF]
  | cons r rs ih =>
    intro old new acc st hclean hm
    simp only [processRelListF]
    split
    · next rest hres =>
      have hacc_clean : cleanComps ("ppt" :: parentComps old) = true := by
        unfold cleanComps at hclean ⊢
        simp [hclean, cleanComp]
      have hacc_ns : noSlashAll ("ppt" :: parentComps old) = true := by
        have h1 : noSlashAll (parentComps old) = true :=
          noSlashAll_dropLast (splitPath_noSlash old)
        unfold noSlashAll at h1 ⊢
        simp [h1, noSlash]
      have hout : cleanComps ("ppt" :: rest) = true ∧
          noSlashAll ("ppt" :: rest) = true := by
        by_cases hb : strStarts "/" r.target = true
        · rw [if_pos hb] at hres
          exact ⟨resolveComps_out_clean _ _ _ (by simp [cleanComps]) hres,
            resolveComps_out_noSlash _ _ _ (by simp [noSlashAll])
              (splitPath_noSlash _) hres⟩
        · rw [if_neg hb] at hres
          exact ⟨resolveComps_out_clean _ _ _ hacc_clean hres,
            resolveComps_out_noSlash _ _ _ hacc_ns (splitPath_noSlash _) hres⟩
      have hok : okPath src (if rest = [] then "." else joinPath rest) := by
        by_cases hrest : rest = []
        · rw [if_pos hrest]
          right
          have : existsInSource src (stripLead ".") =
              src.files.contains "ppt" := rfl
          rw [this, hppt]
        · rw [if_neg hrest]
          left
          have hrc : cleanComps rest = true := by
            have := hout.1
            unfold cleanComps at this ⊢
            simp only [List.all_cons, Bool.and_eq_true] at this
            exact this.2
          have hrns : noSlashAll rest = true := by
            have := hout.2
            unfold noSlashAll at this ⊢
            simp only [List.all_cons, Bool.and_eq_true] at this
            exact this.2
          have hstrip : stripLead (joinPath rest) = joinPath rest := by
            unfold stripLead
            cases rest with
            | nil => exact absurd rfl hrest
            | cons x xs =>
              have hxne : ¬ x = "" := by
                unfold cleanComps at hrc
                simp only [List.all_cons, Bool.and_eq_true] at hrc
                exact (cleanComp_spec hrc.1).1 ∘ Or.inl
              have hxns : noSlash x = true := by
                unfold noSlashAll at hrns
                simp only [List.all_cons, Bool.and_eq_true] at hrns
                exact hrns.1
              rw [strStarts_slash_false x xs hxne hxns]
              simp
          rw [hstrip, splitPath_joinPath rest hrest hrns]
          exact hrc
      have hs := hsomeImp st _ (getRelationshipTargetType r.type r.target) hm hok
      obtain ⟨⟨st', r'⟩, heq⟩ := Option.isSome_iff_exists.mp hs
      rw [heq]
      refine ih old new _ st' hclean ?_
      exact Nat.le_trans (missingCount_mono (hgrowImp _ _ _ _ _ heq)) hm
    · exact ih old new _ st hclean hm

/-- C9 core: `_import_part` finishes within fuel `missingCount + 2`,
whatever the relationship graph — cycles included — because every recursive
descent first caches its part and therefore strictly shrinks the set of
uncached parts. -/
theorem suff_importPartF :
    ∀ (fuel : Nat) (src : SourcePkg) (srcId : String) (st : MergeState)
      (p t : String),
      src.files.contains "ppt" = false →
      okPath src p →
      missingCount src srcId st + 2 ≤ fuel →
      (importPartF fuel src srcId st p t).isSome := by
  intro fuel
  induction fuel with
  | zero =>
    intro src srcId st p t _ _ hfuel
    omega
  | succ fuel ih =>
    intro src srcId st p t hppt hok hfuel
    cases hlook : lookupA st.importedParts (srcId, stripLead p) with
    | some q => simp [importPartF, hlook]
    | none =>
      simp only [importPartF, hlook]
      by_cases hex : existsInSource src (stripLead p) = true
      · rw [if_neg (by simp [hex])]
        have hclean : cleanComps (splitPath (stripLead p)) = true := by
          rcases hok with h | h
          · exact h
          · rw [hex] at h; cases h
        have hmem : ("ppt/" ++ stripLead p) ∈ src.files :=
          (existsInSource_clean src (stripLead p) hclean).mp hex
        have hppt_mem : stripLead p ∈ src.pptParts := mem_pptParts src _ hmem
        have hlt : missingCount src srcId
            (copyRecord src srcId { st with nextIds := allocIds st t }
              (stripLead p) (allocPath st (stripLead p) t)) <
            missingCount src srcId st := by
          apply missingCount_insert_lt src srcId st (stripLead p)
            (allocPath st (stripLead p) t) hppt_mem hlook
          rw [copyRecord_importedParts]
        split
        · cases hrels : lookupA src.relsOf
            (joinPath (parentComps (stripLead p) ++
              ["_rels", pathName (stripLead p) ++ ".rels"])) with
          | none => simp
          | some rels =>
            have hs := suff_processRelListF src srcId
              (fun s pp tt => importPartF fuel src srcId s pp tt)
              (missingCount src srcId
                (copyRecord src srcId { st with nextIds := allocIds st t }
                  (stripLead p) (allocPath st (stripLead p) t)))
              hppt
              (fun s pp tt s' rr hh => grows_importPartF fuel src srcId s pp tt s' rr hh)
              (fun s pp tt hm hokk => ih src srcId s pp tt hppt hokk (by omega))
              rels (stripLead p) (allocPath st (stripLead p) t) []
              (copyRecord src srcId { st with nextIds := allocIds st t }
                (stripLead p) (allocPath st (stripLead p) t))
              (cleanComps_dropLast hclean)
              (Nat.le_refl _)
            obtain ⟨st4, heq4⟩ := Option.isSome_iff_exists.mp hs
            simp [heq4]
        · simp
      · rw [if_pos (by simp [hex])]
        simp

/-- C9: the recursive relationship-closure import (`_import_part` invoking
`_process_relationships`, which invokes `_import_part` on each target)
terminates for every input, including sources whose relationship graphs
contain cycles: any fuel of at least `missingCount + 2` (at most the number
of parts below `ppt/` plus two) suffices, because the ImportCache
memoization by `(source, original path)` — the entry is written *before*
the recursive descent — prevents revisiting a part that is already being
brought in. -/
theorem import_closure_terminates (fuel : Nat) (src : SourcePkg) (srcId : String)
    (st : MergeState) (p t : String)
    (hppt : src.files.contains "ppt" = false)
    (hok : okPath src p)
    (hfuel : missingCount src srcId st + 2 ≤ fuel) :
    importPartF fuel src srcId st p t ≠ none := by
  have hsome := suff_importPartF fuel src srcId st p t hppt hok hfuel
  intro hc
  rw [hc] at hsome
  cases hsome

/-- A source whose relationship graph is a genuine cycle:
`slide1 → slideLayout1 → slide1`. -/
def w9Src : SourcePkg :=
  { files := ["ppt/slides/slide1.xml", "ppt/slideLayouts/slideLayout1.xml"],
    sldIdLst := some ["rId2"], masterIdLst := none,
    presRels := [⟨"rId2", slideRelType, "slides/slide1.xml"⟩],
    relsOf := [("slides/_rels/slide1.xml.rels",
        [⟨"rId1", "http://s/relationships/slideLayout",
          "../slideLayouts/slideLayout1.xml"⟩]),
      ("slideLayouts/_rels/slideLayout1.xml.rels",
        [⟨"rId1", "http://s/relationships/slide", "../slides/slide1.xml"⟩])],
    ctDoc := ⟨[("xml", "application/xml")], []⟩ }

/-- Witness for C9 on the cyclic source: the import returns. -/
theorem import_closure_terminates_witness :
    w9Src.files.contains "ppt" = false ∧
    okPath w9Src "slides/slide1.xml" ∧
    missingCount w9Src "s" emptyState + 2 ≤ 4 ∧
    importPartF 4 w9Src "s" emptyState "slides/slide1.xml" "slides" ≠ none :=
  ⟨by decide, by decide, by decide,
   import_closure_terminates 4 w9Src "s" emptyState "slides/slide1.xml" "slides"
     (by decide) (by decide) (by decide)⟩

/-! ## Claim C6 -/

/-- Modelled from the spec's words, for comparison with the code (C6):
coverage of a part name by the destination's content-types document,
"by an existing `Default` (by extension) or an existing `Override`
(by part name)". -/
def specCoveredCT (doc : CTDoc) (pn : String) : Bool :=
  (doc.defaults.map (fun d => lowerStr d.1)).contains (extKey pn) ||
  (doc.overrides.map Prod.fst).contains pn

/-- Modelled from the spec's words, for comparison with the code (C6):
finalization that skips every collected pair already covered by a `Default`
or an `Override`, then ensures the presentation part's own override. -/
def specUpdateContentTypes (doc : CTDoc) (imported : List (String × String)) :
    CTDoc :=
  let afterImports := imported.foldl
    (fun (d : CTDoc) pct =>
      if specCoveredCT d pct.1 then d
      else { d with overrides := d.overrides ++ [pct] })
    doc
  let presPart := "/ppt/presentation.xml"
  if (afterImports.overrides.map Prod.fst).contains presPart then afterImports
  else { afterImports with overrides := afterImports.overrides ++
    [(presPart,
      "application/vnd.openxmlformats-officedocument.presentationml.presentation.main+xml")] }

theorem updateCT_fold_defaults (imported : List (String × String)) :
    ∀ doc : CTDoc,
      (imported.foldl
        (fun (d : CTDoc) pct =>
          if (d.overrides.map Prod.fst).contains pct.1 then d
          else { d with overrides := d.overrides ++ [pct] }) doc).defaults =
      doc.defaults := by
  induction imported with
  | nil => intro doc; rfl
  | cons pct rest ih =>
    intro doc
    rw [List.foldl_cons, ih]
    split <;> rfl

theorem updateCT_fold_keys (imported : List (String × String)) :
    ∀ (doc : CTDoc) (pn : String),
      pn ∈ (imported.foldl
        (fun (d : CTDoc) pct =>
          if (d.overrides.map Prod.fst).contains pct.1 then d
          else { d with overrides := d.overrides ++ [pct] }) doc).overrides.map Prod.fst ↔
      (pn ∈ doc.overrides.map Prod.fst ∨ pn ∈ imported.map Prod.fst) := by
  induction imported with
  | nil =>
    intro doc pn
    simp
  | cons pct rest ih =>
    intro doc pn
    rw [List.foldl_cons, ih]
    by_cases hc : (doc.overrides.map Prod.fst).contains pct.1 = true
    · rw [if_pos hc]
      simp only [List.map_cons, List.mem_cons]
      constructor
      · rintro (h | h)
        · exact Or.inl h
        · exact Or.inr (Or.inr h)
      · rintro (h | h | h)
        · exact Or.inl h
        · subst h
          exact Or.inl (List.mem_of_elem_eq_true hc)
        · exact Or.inr h
    · rw [if_neg hc]
      simp only [List.map_append, List.map_cons, List.mem_append,
        List.mem_cons, List.map_nil, List.mem_singleton]
      constructor
      · rintro (⟨h | h⟩ | h)
        · exact Or.inl h
        · rcases h with h | h
          · exact Or.inr (Or.inl h)
          · cases h
        · exact Or.inr (Or.inr h)
      · rintro (h | h | h)
        · exact Or.inl (Or.inl h)
        · exact Or.inl (Or.inr (Or.inl h))
        · exact Or.inr h

theorem updateCT_fold_nodup (imported : List (String × String)) :
    ∀ doc : CTDoc, (doc.overrides.map Prod.fst).Nodup →
      ((imported.foldl
        (fun (d : CTDoc) pct =>
          if (d.overrides.map Prod.fst).contains pct.1 then d
          else { d with overrides := d.overrides ++ [pct] }) doc).overrides.map
        Prod.fst).Nodup := by
  induction imported with
  | nil => intro doc h; exact h
  | cons pct rest ih =>
    intro doc h
    rw [List.foldl_cons]
    by_cases hc : (doc.overrides.map Prod.fst).contains pct.1 = true
    · rw [if_pos hc]
      exact ih doc h
    · rw [if_neg hc]
      apply ih
      simp only [List.map_append, List.map_cons, List.map_nil]
      rw [List.nodup_append]
      refine ⟨h, List.nodup_singleton _, ?_⟩
      intro a ha hb
      rw [List.mem_singleton] at hb
      subst hb
      exact hc (List.elem_eq_true_of_mem ha)

/-- C6 (amended): finalization appends an `Override` for exactly those
collected part names not already present as an `Override` — existing
`Default` entries are never consulted, so a `Default`-covered collected
pair still receives an `Override` — it never duplicates an `Override`, it
leaves the `Default` entries untouched, and it always ensures
`/ppt/presentation.xml` has an `Override`. -/
theorem ct_finalize_appends_unless_override (doc : CTDoc)
    (imported : List (String × String)) :
    (updateContentTypes doc imported).defaults = doc.defaults ∧
    (∀ pn, pn ∈ (updateContentTypes doc imported).overrides.map Prod.fst ↔
      (pn ∈ doc.overrides.map Prod.fst ∨ pn ∈ imported.map Prod.fst ∨
        pn = "/ppt/presentation.xml")) ∧
    ((doc.overrides.map Prod.fst).Nodup →
      ((updateContentTypes doc imported).overrides.map Prod.fst).Nodup) := by
  unfold updateContentTypes ensurePresOverride
  refine ⟨?_, ?_, ?_⟩
  · split
    · exact updateCT_fold_defaults imported doc
    · exact updateCT_fold_defaults imported doc
  · intro pn
    split
    · next hpres =>
      rw [updateCT_fold_keys imported doc pn]
      constructor
      · rintro (h | h)
        · exact Or.inl h
        · exact Or.inr (Or.inl h)
      · rintro (h | h | h)
        · exact Or.inl h
        · exact Or.inr h
        · subst h
          have := List.mem_of_elem_eq_true hpres
          rw [updateCT_fold_keys imported doc _] at this
          rcases this with h | h
          · exact Or.inl h
          · exact Or.inr h
    · simp only [List.map_append, List.mem_append, List.map_cons, List.map_nil,
        List.mem_singleton]
      rw [updateCT_fold_keys imported doc pn]
      constructor
      · rintro (⟨h | h⟩ | h)
        · exact Or.inl h
        · exact Or.inr (Or.inl h)
        · exact Or.inr (Or.inr h)
      · rintro (h | h | h)
        · exact Or.inl (Or.inl h)
        · exact Or.inl (Or.inr h)
        · subst h
          simp
  · intro hnd
    split
    · exact updateCT_fold_nodup imported doc hnd
    · next hpres =>
      simp only [List.map_append, List.map_cons, List.map_nil]
      rw [List.nodup_append]
      refine ⟨updateCT_fold_nodup imported doc hnd, List.nodup_singleton _, ?_⟩
      intro a ha hb
      rw [List.mem_singleton] at hb
      subst hb
      exact hpres (List.elem_eq_true_of_mem ha)

/-- The concrete document of the C6 counterexample: `png` has a `Default`,
no `Override` exists. -/
def c6Doc : CTDoc := ⟨[("png", "image/png")], []⟩

/-- The collected pair of the C6 counterexample: an imported image whose
extension the destination already covers by `Default`. -/
def c6Imported : List (String × String) := [("/ppt/media/image1.png", "image/png")]

/-- C6 counterexample: `_update_content_types` appends an `Override` for
`/ppt/media/image1.png` although the destination's `Default` for `png`
already covers it — against the claim that entries covered by an existing
`Default` are not appended — and its result differs from the
spec-described finalization. -/
theorem ct_finalize_ignores_defaults_counterexample :
    specCoveredCT c6Doc "/ppt/media/image1.png" = true ∧
    "/ppt/media/image1.png" ∈
      (updateContentTypes c6Doc c6Imported).overrides.map Prod.fst ∧
    updateContentTypes c6Doc c6Imported ≠ specUpdateContentTypes c6Doc c6Imported := by
  refine ⟨by decide, by decide, by decide⟩

/-- Witness for C6 (amended) at the same concrete input. -/
theorem ct_finalize_appends_unless_override_witness :
    (updateContentTypes c6Doc c6Imported).defaults = c6Doc.defaults ∧
    ((updateContentTypes c6Doc c6Imported).overrides.map Prod.fst).Nodup :=
  ⟨(ct_finalize_appends_unless_override c6Doc c6Imported).1,
   (ct_finalize_appends_unless_override c6Doc c6Imported).2.2 (by decide)⟩

/-! ## Well-formed sources and loop totality -/

/-- The well-formedness a source needs for the fuel bound: no stray file
named exactly `ppt` (it is a directory in a real extraction), and every
`presentation.xml.rels` target an importable path. -/
def wfSource (src : SourcePkg) : Prop :=
  src.files.contains "ppt" = false ∧ ∀ r ∈ src.presRels, okPath src r.target

instance (src : SourcePkg) : Decidable (wfSource src) := by
  unfold wfSource
  exact instDecidableAnd

theorem getSourceSlidePart_mem_rels (src : SourcePkg) (idx : Int) (t : String)
    (h : getSourceSlidePart src idx = some t) :
    ∃ r ∈ src.presRels, r.target = t := by
  unfold getSourceSlidePart at h
  split at h
  · cases h
  · split at h
    · cases h
    · next slides _ =>
      split at h
      · cases h
      · split at h
        · cases h
        · next rId _ =>
          rw [Option.map_eq_some'] at h
          obtain ⟨r, hr, hrt⟩ := h
          exact ⟨r, List.mem_of_find?_eq_some hr, hrt⟩

theorem missingCount_le (src : SourcePkg) (srcId : String) (st : MergeState) :
    missingCount src srcId st ≤ src.pptParts.length :=
  List.countP_le_length _

/-- One request always completes under well-formedness, and resolves per
`resolveReq`. -/
theorem processOneSlide_total (sources : String → SourcePkg) (ps : PresState)
    (sid : String) (idx : Int) (hwf : wfSource (sources sid)) :
    (resolveReq sources (sid, idx) = none ∧
      processOneSlide sources ps (sid, idx) = some ps) ∨
    (∃ t ms' np, resolveReq sources (sid, idx) = some t ∧
      importPartF (importFuel (sources sid)) (sources sid) sid ps.ms t "slides" =
        some (ms', np) ∧
      processOneSlide sources ps (sid, idx) =
        some (appendSlideEntry
          (ensureMasterRegistered { ps with ms := ms' } sid t) np)) := by
  cases hres : resolveReq sources (sid, idx) with
  | none =>
    left
    refine ⟨rfl, ?_⟩
    unfold processOneSlide
    rw [hres]
  | some t =>
    right
    have hok : okPath (sources sid) t := by
      unfold resolveReq at hres
      split at hres
      · cases hres
      · next t' heq =>
        split at hres
        · cases hres
        · obtain ⟨r, hr, hrt⟩ := getSourceSlidePart_mem_rels _ _ _ heq
          cases hres
          exact hrt ▸ hwf.2 r hr
    have hfuel : missingCount (sources sid) sid ps.ms + 2 ≤
        importFuel (sources sid) := by
      unfold importFuel
      have := missingCount_le (sources sid) sid ps.ms
      omega
    have hsome := suff_importPartF (importFuel (sources sid)) (sources sid) sid
      ps.ms t "slides" hwf.1 hok hfuel
    obtain ⟨⟨ms', np⟩, heqi⟩ := Option.isSome_iff_exists.mp hsome
    refine ⟨t, ms', np, rfl, heqi, ?_⟩
    unfold processOneSlide
    rw [hres]
    simp [heqi]

/-! ## Claim C7 -/

/-- Numeric invariant of the request loop: master ids live at or above
`2^31`, the next master id does too, the next slide id tracks the slide
count from its fixed base `256`, and every issued slide id is below the
next one. -/
def Inv7 (ps : PresState) : Prop :=
  (∀ e ∈ ps.masterEntries, 2147483648 ≤ e.1) ∧
  2147483648 ≤ ps.nextMasterId ∧
  ps.nextSlideId = 256 + ps.sldEntries.length ∧
  (∀ s ∈ ps.sldEntries, s.1 < ps.nextSlideId)

theorem ensureMaster_fixed (ps : PresState) (sid t : String) :
    (ensureMasterRegistered ps sid t).sldEntries = ps.sldEntries ∧
    (ensureMasterRegistered ps sid t).nextSlideId = ps.nextSlideId := by
  unfold ensureMasterRegistered
  split
  · exact ⟨rfl, rfl⟩
  · split
    · exact ⟨rfl, rfl⟩
    · exact ⟨rfl, rfl⟩

theorem ensureMaster_inv7 (ps : PresState) (sid t : String) (h : Inv7 ps) :
    Inv7 (ensureMasterRegistered ps sid t) := by
  obtain ⟨h1, h2, h3, h4⟩ := h
  unfold ensureMasterRegistered
  split
  · exact ⟨h1, h2, h3, h4⟩
  · split
    · exact ⟨h1, h2, h3, h4⟩
    · refine ⟨?_, by simpa using Nat.le_succ_of_le h2, h3, h4⟩
      intro e he
      rcases List.mem_append.mp he with hm | hm
      · exact h1 e hm
      · rw [List.mem_singleton.mp hm]
        exact h2

theorem appendSlideEntry_inv7 (ps : PresState) (np : String) (h : Inv7 ps) :
    Inv7 (appendSlideEntry ps np) ∧
    (appendSlideEntry ps np).sldEntries.length = ps.sldEntries.length + 1 := by
  obtain ⟨h1, h2, h3, h4⟩ := h
  unfold appendSlideEntry
  refine ⟨⟨h1, h2, ?_, ?_⟩, by simp⟩
  · simp
    omega
  · intro s hs
    rcases List.mem_append.mp hs with hm | hm
    · exact Nat.lt_succ_of_lt (h4 s hm)
    · rw [List.mem_singleton.mp hm]
      exact Nat.lt_succ_self _

/-- The request loop completes and preserves the numeric invariant, adding
at most one slide entry per request. -/
theorem fold_inv7 (sources : String → SourcePkg) :
    ∀ (reqs : List (String × Int)) (ps : PresState),
      (∀ sid ∈ reqs.map Prod.fst, wfSource (sources sid)) →
      Inv7 ps →
      ∃ out, List.foldlM (processOneSlide sources) ps reqs = some out ∧
        Inv7 out ∧
        out.sldEntries.length ≤ ps.sldEntries.length + reqs.length := by
  intro reqs
  induction reqs with
  | nil =>
    intro ps _ hinv
    exact ⟨ps, rfl, hinv, by omega⟩
  | cons req rest ih =>
    intro ps hwf hinv
    rcases req with ⟨sid, idx⟩
    have hwf1 : wfSource (sources sid) := hwf sid (by simp)
    have hwfr : ∀ s ∈ rest.map Prod.fst, wfSource (sources s) :=
      fun s hs => hwf s (by simp [hs])
    rcases processOneSlide_total sources ps sid idx hwf1 with
      ⟨_, hstep⟩ | ⟨t, ms', np, _, _, hstep⟩
    · obtain ⟨out, hout, hinv', hlen⟩ := ih ps hwfr hinv
      refine ⟨out, ?_, hinv', by simp only [List.length_cons]; omega⟩
      rw [List.foldlM_cons, hstep]
      exact hout
    · have hinvM : Inv7 { ps with ms := ms' } := hinv
      have hinvE := ensureMaster_inv7 { ps with ms := ms' } sid t hinvM
      have hfix := ensureMaster_fixed { ps with ms := ms' } sid t
      have hinvA := appendSlideEntry_inv7 _ np hinvE
      obtain ⟨out, hout, hinv', hlen⟩ := ih _ hwfr hinvA.1
      refine ⟨out, ?_, hinv', ?_⟩
      · rw [List.foldlM_cons, hstep]
        exact hout
      · have hlen2 := hinvA.2
        rw [hfix.1] at hlen2
        have hlen3 : ({ ps with ms := ms' } : PresState).sldEntries.length =
          ps.sldEntries.length := rfl
        rw [hlen3] at hlen2
        simp only [List.length_cons]
        omega

theorem le_foldl_max (xs : List Nat) : ∀ x, x ≤ xs.foldl Nat.max x := by
  induction xs with
  | nil => intro x; exact Nat.le_refl _
  | cons y ys ih =>
    intro x
    exact Nat.le_trans (Nat.le_max_left x y) (ih (Nat.max x y))

/-- C7 (amended): when the skeleton's existing `<p:sldMasterId>` ids all
sit at or above `2^31` (as ECMA-376 requires) or are absent, every master
id in the completed merge — kept or issued — is ≥ `2^31`, and since slide
ids are issued from `256` counting up once per request, with fewer than
`2^31 − 256` requests the two id spaces cannot overlap.  (Without the
skeleton hypothesis the guarantee fails: issued ids start at
`max(existing)+1`, see the counterexample.) -/
theorem master_ids_high_spaced (sources : String → SourcePkg) (baseId : String)
    (reqs : List (String × Int))
    (hwf : ∀ sid ∈ reqs.map Prod.fst, wfSource (sources sid))
    (hhigh : ∀ e ∈ (sources baseId).masterIdLst.getD [], 2147483648 ≤ e.1)
    (hlen : reqs.length ≤ 2147483648 - 256) :
    ∃ out, processSlides sources baseId reqs = some out ∧
      (∀ e ∈ out.masterEntries, 2147483648 ≤ e.1) ∧
      (∀ s ∈ out.sldEntries, s.1 < 2147483648) ∧
      (∀ e ∈ out.masterEntries, ∀ s ∈ out.sldEntries, ¬ e.1 = s.1) := by
  have hinv0 : Inv7 (initPresState (sources baseId)
      (prepareBase (sources baseId) baseId)) := by
    unfold initPresState Inv7
    refine ⟨hhigh, ?_, by simp, by simp⟩
    cases hm : (sources baseId).masterIdLst.getD [] with
    | nil => simp [hm]
    | cons e es =>
      simp only [hm, List.map_cons]
      have h1 : 2147483648 ≤ e.1 := hhigh e (by simp [hm])
      have h2 : e.1 ≤ (es.map Prod.fst).foldl Nat.max e.1 := le_foldl_max _ _
      exact Nat.le_trans h1 (Nat.le_trans h2 (Nat.le_succ _))
  obtain ⟨out0, hfold, hinv, hcnt⟩ :=
    fold_inv7 sources reqs _ hwf hinv0
  simp only [processSlides]
  rw [hfold]
  refine ⟨_, rfl, hinv.1, ?_, ?_⟩
  · intro s hs
    have h1 := hinv.2.2.2 s hs
    have h2 := hinv.2.2.1
    have h3 : (initPresState (sources baseId)
        (prepareBase (sources baseId) baseId)).sldEntries.length = 0 := rfl
    rw [h3] at hcnt
    omega
  · intro e he s hs
    have h1 := hinv.1 e he
    have h2 := hinv.2.2.2 s hs
    have h3 := hinv.2.2.1
    have h4 : (initPresState (sources baseId)
        (prepareBase (sources baseId) baseId)).sldEntries.length = 0 := rfl
    rw [h4] at hcnt
    omega

/-- The skeleton of the C7 counterexample: a master list entry with the
low id `5`, whose relationship `rId9` points at a master no requested
slide uses. -/
def c7xSrc : SourcePkg :=
  { files := ["[Content_Types].xml", "ppt/presentation.xml",
      "ppt/_rels/presentation.xml.rels", "ppt/slides/slide1.xml",
      "ppt/slides/_rels/slide1.xml.rels", "ppt/slideLayouts/slideLayout1.xml",
      "ppt/slideLayouts/_rels/slideLayout1.xml.rels",
      "ppt/slideMasters/slideMaster1.xml"],
    sldIdLst := some ["rId2"],
    masterIdLst := some [(5, "rId9")],
    presRels := [⟨"rId9", masterRelType, "slideMasters/slideMasterOld.xml"⟩,
                 ⟨"rId2", slideRelType, "slides/slide1.xml"⟩],
    relsOf := [("slides/_rels/slide1.xml.rels",
        [⟨"rId1", "http://s/relationships/slideLayout",
          "../slideLayouts/slideLayout1.xml"⟩]),
      ("slideLayouts/_rels/slideLayout1.xml.rels",
        [⟨"rId1", "http://s/relationships/slideMaster",
          "../slideMasters/slideMaster1.xml"⟩])],
    ctDoc := ⟨[("xml", "application/xml")],
      [("/ppt/presentation.xml", "application/x.pres+xml")]⟩ }

/-- C7 counterexample: with a skeleton whose master list holds the id `5`,
registering one new master issues the id `6 = max(existing)+1`, far below
`2^31` — refuting "every master ID issued … is ≥ 2^31 … regardless of what
master IDs the skeleton source already contained". -/
theorem master_id_low_counterexample :
    (processSlides (fun _ => c7xSrc) "B" [("B", 1)]).map
        (fun out => out.masterEntries) = some [(5, "rId9"), (6, "rId10")] ∧
    ¬ (2147483648 ≤ 6) := by
  refine ⟨by decide, by decide⟩

/-- Witness for C7 (amended): a compliant skeleton (master id `2^31`)
keeps every master id high and disjoint from the issued slide ids. -/
theorem master_ids_high_spaced_witness :
    ∃ out, processSlides (fun _ => w9Src) "A" [("A", 1)] = some out ∧
      (∀ e ∈ out.masterEntries, 2147483648 ≤ e.1) ∧
      (∀ s ∈ out.sldEntries, s.1 < 2147483648) ∧
      (∀ e ∈ out.masterEntries, ∀ s ∈ out.sldEntries, ¬ e.1 = s.1) :=
  master_ids_high_spaced (fun _ => w9Src) "A" [("A", 1)]
    (by decide) (by decide) (by decide)

/-! ## Claim C1: the slide sequence follows the requests -/

/-- The requested entries that resolve, in request order, paired with the
verbatim source part path each one resolved to. -/
def resolvedRequests (sources : String → SourcePkg)
    (reqs : List (String × Int)) : List (String × String) :=
  reqs.filterMap (fun req => (resolveReq sources req).map (fun t => (req.1, t)))

/-- The destination path a request's slide ends up under: the cached
mapping, or the original path itself for the degraded fallback. -/
def destPathOf (st : MergeState) (k : String × String) : String :=
  (lookupA st.importedParts (k.1, stripLead k.2)).getD (stripLead k.2)

/-- The `Target`s of the slide-typed relationships of the destination
presentation, in document order. -/
def slideRelTargets (ps : PresState) : List String :=
  (ps.presRels.filter (fun r => r.type = slideRelType)).map (fun r => r.target)

/-- The `Id`s of the slide-typed relationships, in document order. -/
def slideRelIds (ps : PresState) : List String :=
  (ps.presRels.filter (fun r => r.type = slideRelType)).map (fun r => r.id)

/-- Growth of the merge state across request-loop steps, which may import
from several sources: the cache is append-only and every appended binding's
part exists in its own source. -/
structure MGrows (sources : String → SourcePkg) (m m' : MergeState) : Prop where
  cache_ext : ∃ l, m'.importedParts = m.importedParts ++ l ∧
    ∀ e ∈ l, existsInSource (sources e.1.1) e.1.2 = true
  files_sub : ∀ f ∈ m.workFiles, f ∈ m'.workFiles
  ict_sub : ∀ k ∈ m.importedContentTypes.map Prod.fst,
    k ∈ m'.importedContentTypes.map Prod.fst

theorem MGrows_refl (sources : String → SourcePkg) (m : MergeState) :
    MGrows sources m m :=
  ⟨⟨[], by simp, by simp⟩, fun _ h => h, fun _ h => h⟩

theorem MGrows_trans {sources : String → SourcePkg} {m₁ m₂ m₃ : MergeState}
    (h₁ : MGrows sources m₁ m₂) (h₂ : MGrows sources m₂ m₃) :
    MGrows sources m₁ m₃ := by
  refine ⟨?_, fun f hf => h₂.files_sub f (h₁.files_sub f hf),
    fun k hk => h₂.ict_sub k (h₁.ict_sub k hk)⟩
  obtain ⟨l₁, he₁, hp₁⟩ := h₁.cache_ext
  obtain ⟨l₂, he₂, hp₂⟩ := h₂.cache_ext
  refine ⟨l₁ ++ l₂, by rw [he₂, he₁, List.append_assoc], ?_⟩
  intro e he
  rcases List.mem_append.mp he with h | h
  · exact hp₁ e h
  · exact hp₂ e h

theorem MGrows.of_growsAt {sources : String → SourcePkg} {sid : String}
    {m m' : MergeState} (h : GrowsAt (sources sid) sid m m') :
    MGrows sources m m' := by
  refine ⟨?_, h.files_sub, h.ict_sub⟩
  obtain ⟨l, he, hp⟩ := h.cache_ext
  refine ⟨l, he, ?_⟩
  intro e hme
  obtain ⟨h1, h2⟩ := hp e hme
  rw [h1]
  exact h2

/-- A request key whose import outcome is decided: either cached or
permanently uncachable (its bytes are missing in its own source). -/
def Settled (sources : String → SourcePkg) (m : MergeState)
    (k : String × String) : Prop :=
  (∃ v, lookupA m.importedParts (k.1, stripLead k.2) = some v) ∨
  (lookupA m.importedParts (k.1, stripLead k.2) = none ∧
    existsInSource (sources k.1) (stripLead k.2) = false)

theorem destPath_stable {sources : String → SourcePkg} {m m' : MergeState}
    (h : MGrows sources m m') (k : String × String)
    (hs : Settled sources m k) :
    destPathOf m' k = destPathOf m k ∧ Settled sources m' k := by
  obtain ⟨l, he, hp⟩ := h.cache_ext
  rcases hs with ⟨v, hv⟩ | ⟨hn, hx⟩
  · have hv' : lookupA m'.importedParts (k.1, stripLead k.2) = some v := by
      rw [he]
      exact lookupA_append_some _ _ _ _ hv
    exact ⟨by unfold destPathOf; rw [hv, hv'], Or.inl ⟨v, hv'⟩⟩
  · have hn' : lookupA m'.importedParts (k.1, stripLead k.2) = none := by
      rw [he, lookupA_append_none _ _ _ hn]
      clear he
      revert hp
      induction l with
      | nil => intro _; rfl
      | cons e rest ih =>
        intro hp
        rcases e with ⟨⟨sid', p'⟩, v'⟩
        have hk : ¬ ((sid', p') = (k.1, stripLead k.2)) := by
          intro hkk
          rw [Prod.mk.injEq] at hkk
          have h2 := hp _ (List.mem_cons_self _ _)
          rw [hkk.1, hkk.2] at h2
          rw [h2] at hx
          cases hx
        simp only [lookupA]
        rw [if_neg hk]
        exact ih (fun e hme => hp e (List.mem_cons_of_mem _ hme))
    exact ⟨by unfold destPathOf; rw [hn, hn'], Or.inr ⟨hn', hx⟩⟩

/-- The result of an import call is exactly `destPathOf` of the resulting
state, and the key is settled there. -/
theorem import_result_destPath (fuel : Nat) (src : SourcePkg) (srcId : String)
    (st : MergeState) (p t : String) (st' : MergeState) (r : String)
    (h : importPartF (fuel + 1) src srcId st p t = some (st', r)) :
    lookupA st'.importedParts (srcId, stripLead p) = some r ∨
    (lookupA st'.importedParts (srcId, stripLead p) = none ∧
      existsInSource src (stripLead p) = false ∧ r = stripLead p) := by
  simp only [importPartF] at h
  split at h
  · next q heq =>
    simp only [Option.some.injEq, Prod.mk.injEq] at h
    obtain ⟨h1, h2⟩ := h
    subst h1
    subst h2
    exact Or.inl heq
  · next hmiss =>
    split at h
    · next hnex =>
      simp only [Option.some.injEq, Prod.mk.injEq] at h
      obtain ⟨h1, h2⟩ := h
      subst h1
      subst h2
      right
      refine ⟨hmiss, ?_, rfl⟩
      revert hnex
      by_cases hb : existsInSource src (stripLead p) = true <;> simp [hb]
    · next hex =>
      have hex' : existsInSource src (stripLead p) = true := by
        revert hex
        by_cases hb : existsInSource src (stripLead p) = true <;> simp [hb]
      left
      have hbase : lookupA
          (copyRecord src srcId { st with nextIds := allocIds st t }
            (stripLead p) (allocPath st (stripLead p) t)).importedParts
          (srcId, stripLead p) = some (allocPath st (stripLead p) t) := by
        rw [copyRecord_importedParts]
        have : ({ st with nextIds := allocIds st t } : MergeState).importedParts
            = st.importedParts := rfl
        rw [this, lookupA_append_none _ _ _ hmiss]
        simp [lookupA]
      split at h
      · split at h
        · simp only [Option.some.injEq, Prod.mk.injEq] at h
          obtain ⟨h1, h2⟩ := h
          subst h1
          subst h2
          exact hbase
        · split at h
          · exact absurd h (by simp)
          · next st4 heq4 =>
            simp only [Option.some.injEq, Prod.mk.injEq] at h
            obtain ⟨h1, h2⟩ := h
            subst h1
            subst h2
            have hg := grows_processRelListF src srcId _
              (fun s pp tt s' rr hh => grows_importPartF fuel src srcId s pp tt s' rr hh)
              _ _ _ _ _ _ heq4
            exact hg.lookup_stable hbase
      · simp only [Option.some.injEq, Prod.mk.injEq] at h
        obtain ⟨h1, h2⟩ := h
        subst h1
        subst h2
        exact hbase

theorem filter_of_filter_neg (l : List XRel) (p : XRel → Prop) [DecidablePred p] :
    (l.filter (fun r => decide (¬ p r))).filter (fun r => decide (p r)) = [] := by
  induction l with
  | nil => rfl
  | cons r rs ih =>
    by_cases hp : p r
    · simp [hp, ih]
    · simp [hp, ih]

theorem masterRel_not_slideRel : ¬ (masterRelType = slideRelType) := by decide

theorem ensureMaster_parts_fixed (ps : PresState) (sid t : String) :
    slideRelTargets (ensureMasterRegistered ps sid t) = slideRelTargets ps ∧
    slideRelIds (ensureMasterRegistered ps sid t) = slideRelIds ps ∧
    (ensureMasterRegistered ps sid t).ms = ps.ms ∧
    (ensureMasterRegistered ps sid t).sldEntries = ps.sldEntries := by
  unfold ensureMasterRegistered
  split
  · exact ⟨rfl, rfl, rfl, rfl⟩
  · split
    · exact ⟨rfl, rfl, rfl, rfl⟩
    · refine ⟨?_, ?_, rfl, rfl⟩
      · unfold slideRelTargets
        simp [List.filter_append, masterRel_not_slideRel]
      · unfold slideRelIds
        simp [List.filter_append, masterRel_not_slideRel]

theorem appendSlideEntry_parts (ps : PresState) (np : String) :
    slideRelTargets (appendSlideEntry ps np) = slideRelTargets ps ++ [np] ∧
    slideRelIds (appendSlideEntry ps np) =
      slideRelIds ps ++ ["rId" ++ toString ps.nextRId] ∧
    (appendSlideEntry ps np).sldEntries.map Prod.snd =
      ps.sldEntries.map Prod.snd ++ ["rId" ++ toString ps.nextRId] ∧
    (appendSlideEntry ps np).ms = ps.ms := by
  unfold appendSlideEntry
  refine ⟨?_, ?_, by simp, rfl⟩
  · unfold slideRelTargets
    simp [List.filter_append]
  · unfold slideRelIds
    simp [List.filter_append]

theorem initPresState_parts (base : SourcePkg) (ms : MergeState) :
    slideRelTargets (initPresState base ms) = [] ∧
    slideRelIds (initPresState base ms) = [] ∧
    (initPresState base ms).sldEntries = [] := by
  refine ⟨?_, ?_, rfl⟩
  · unfold slideRelTargets initPresState
    exact congrArg (List.map _) (filter_of_filter_neg base.presRels _)
  · unfold slideRelIds initPresState
    exact congrArg (List.map _) (filter_of_filter_neg base.presRels _)

/-- The request loop: completes, grows the merge state, appends exactly
the resolvable requests' destination paths to the slide-typed relationship
targets (order preserved), and keeps the `<p:sldId>` entries paired with
the slide relationships. -/
theorem fold_slide_seq (sources : String → SourcePkg) :
    ∀ (reqs : List (String × Int)) (ps : PresState),
      (∀ sid ∈ reqs.map Prod.fst, wfSource (sources sid)) →
      ∃ out, List.foldlM (processOneSlide sources) ps reqs = some out ∧
        MGrows sources ps.ms out.ms ∧
        slideRelTargets out = slideRelTargets ps ++
          (resolvedRequests sources reqs).map (destPathOf out.ms) ∧
        (ps.sldEntries.map Prod.snd = slideRelIds ps →
          out.sldEntries.map Prod.snd = slideRelIds out) := by
  intro reqs
  induction reqs with
  | nil =>
    intro ps _
    exact ⟨ps, rfl, MGrows_refl sources ps.ms, by simp [resolvedRequests],
      fun h => h⟩
  | cons req rest ih =>
    intro ps hwf
    rcases req with ⟨sid, idx⟩
    have hwf1 : wfSource (sources sid) := hwf sid (by simp)
    have hwfr : ∀ s ∈ rest.map Prod.fst, wfSource (sources s) :=
      fun s hs => hwf s (by simp [hs])
    rcases processOneSlide_total sources ps sid idx hwf1 with
      ⟨hres, hstep⟩ | ⟨t, ms', np, hres, heqi, hstep⟩
    · obtain ⟨out, hout, hmg, htg, hid⟩ := ih ps hwfr
      have hrr : resolvedRequests sources ((sid, idx) :: rest) =
          resolvedRequests sources rest := by
        unfold resolvedRequests
        rw [List.filterMap_cons, hres]
        rfl
      refine ⟨out, ?_, hmg, ?_, hid⟩
      · rw [List.foldlM_cons, hstep]
        exact hout
      · rw [hrr]
        exact htg
    · obtain ⟨out, hout, hmg3, htg, hid⟩ :=
        ih (appendSlideEntry (ensureMasterRegistered { ps with ms := ms' } sid t) np)
          hwfr
      have hE := ensureMaster_parts_fixed { ps with ms := ms' } sid t
      have hA := appendSlideEntry_parts
        (ensureMasterRegistered { ps with ms := ms' } sid t) np
      have hms3 : (appendSlideEntry
          (ensureMasterRegistered { ps with ms := ms' } sid t) np).ms = ms' := by
        rw [hA.2.2.2, hE.2.2.1]
      have hnp := import_result_destPath ((sources sid).pptParts.length + 1)
        (sources sid) sid ps.ms t "slides" ms' np heqi
      have hnp2 : destPathOf ms' (sid, t) = np ∧ Settled sources ms' (sid, t) := by
        rcases hnp with hsome | ⟨hnone, hnex, hr⟩
        · exact ⟨by unfold destPathOf; rw [hsome]; rfl, Or.inl ⟨np, hsome⟩⟩
        · exact ⟨by unfold destPathOf; rw [hnone]; simp [hr], Or.inr ⟨hnone, hnex⟩⟩
      have hmg1 : MGrows sources ps.ms ms' :=
        MGrows.of_growsAt
          (grows_importPartF _ (sources sid) sid ps.ms t "slides" ms' np heqi)
      have hmg3' : MGrows sources ms' out.ms := hms3 ▸ hmg3
      have hstab := destPath_stable hmg3' (sid, t) hnp2.2
      have hval : destPathOf out.ms (sid, t) = np := hstab.1.trans hnp2.1
      refine ⟨out, ?_, MGrows_trans hmg1 hmg3', ?_, ?_⟩
      · rw [List.foldlM_cons, hstep]
        exact hout
      · have hrr : resolvedRequests sources ((sid, idx) :: rest) =
            (sid, t) :: resolvedRequests sources rest := by
          unfold resolvedRequests
          rw [List.filterMap_cons, hres]
          rfl
        have htg3 : slideRelTargets
            (appendSlideEntry (ensureMasterRegistered { ps with ms := ms' } sid t) np)
            = slideRelTargets ps ++ [np] := by
          rw [hA.1, hE.1]
          rfl
        rw [hrr, htg, htg3, List.map_cons, hval, List.append_assoc]
        rfl
      · intro hbase
        apply hid
        rw [hA.2.2.1, hA.2.1, hE.2.1]
        have he2 : (ensureMasterRegistered { ps with ms := ms' } sid t).sldEntries
            = ps.sldEntries := hE.2.2.2
        rw [he2]
        have hps1 : slideRelIds ({ ps with ms := ms' } : PresState) =
            slideRelIds ps := rfl
        rw [hps1, hbase]

/-- C1: for every merge with a non-empty request list, the destination's
slide sequence — the slide-typed relationship entries written to
`presentation.xml.rels` and the `<p:sldId>` entries paired with them — is
exactly the requested `(source, index)` sequence in request order,
restricted to the entries that resolve (`resolveReq`): an entry whose index
is out of range or whose slide relationship cannot be resolved is skipped,
and the merge still completes, producing the remaining slides in caller
order. -/
theorem slide_sequence_follows_requests (sources : String → SourcePkg)
    (baseId : String) (reqs : List (String × Int))
    (hwf : ∀ sid ∈ reqs.map Prod.fst, wfSource (sources sid)) :
    ∃ out, processSlides sources baseId reqs = some out ∧
      slideRelTargets out =
        (resolvedRequests sources reqs).map (destPathOf out.ms) ∧
      out.sldEntries.map Prod.snd = slideRelIds out ∧
      out.sldEntries.length = (resolvedRequests sources reqs).length := by
  obtain ⟨out0, hfold, hmg, htg, hid⟩ := fold_slide_seq sources reqs
    (initPresState (sources baseId) (prepareBase (sources baseId) baseId)) hwf
  have hinit := initPresState_parts (sources baseId)
    (prepareBase (sources baseId) baseId)
  have hid' : out0.sldEntries.map Prod.snd = slideRelIds out0 := by
    apply hid
    rw [hinit.2.2, hinit.2.1]
    rfl
  have htg' : slideRelTargets out0 =
      (resolvedRequests sources reqs).map (destPathOf out0.ms) := by
    rw [htg, hinit.1]
    simp
  simp only [processSlides]
  rw [hfold]
  refine ⟨_, rfl, ?_, ?_, ?_⟩
  · exact htg'
  · exact hid'
  · have h1 : (out0.sldEntries.map Prod.snd).length = (slideRelIds out0).length :=
      congrArg List.length hid'
    have h2 : (slideRelIds out0).length = (slideRelTargets out0).length := by
      unfold slideRelIds slideRelTargets
      simp
    have h3 : (slideRelTargets out0).length =
        (resolvedRequests sources reqs).length := by
      rw [htg']
      simp
    simp only [List.length_map] at h1
    show out0.sldEntries.length = (resolvedRequests sources reqs).length
    omega

/-- The source of the C1 witness: one slide reachable through a layout and
master chain. -/
def w1Src : SourcePkg :=
  { files := ["[Content_Types].xml", "ppt/presentation.xml",
      "ppt/_rels/presentation.xml.rels", "ppt/slides/slide1.xml",
      "ppt/slides/_rels/slide1.xml.rels", "ppt/slideLayouts/slideLayout1.xml",
      "ppt/slideLayouts/_rels/slideLayout1.xml.rels",
      "ppt/slideMasters/slideMaster1.xml"],
    sldIdLst := some ["rId2"],
    masterIdLst := some [(2147483648, "rId1")],
    presRels := [⟨"rId1", masterRelType, "slideMasters/slideMaster1.xml"⟩,
                 ⟨"rId2", slideRelType, "slides/slide1.xml"⟩],
    relsOf := [("slides/_rels/slide1.xml.rels",
        [⟨"rId1", "http://s/relationships/slideLayout",
          "../slideLayouts/slideLayout1.xml"⟩]),
      ("slideLayouts/_rels/slideLayout1.xml.rels",
        [⟨"rId1", "http://s/relationships/slideMaster",
          "../slideMasters/slideMaster1.xml"⟩])],
    ctDoc := ⟨[("xml", "application/xml"), ("rels", "application/xrels")],
      [("/ppt/presentation.xml", "application/xpres"),
       ("/ppt/slides/slide1.xml", "application/xslide")]⟩ }

/-- Witness for C1: two resolvable requests around an out-of-range one. -/
theorem slide_sequence_follows_requests_witness :
    ∃ out, processSlides (fun _ => w1Src) "A" [("A", 1), ("A", 0), ("A", 1)] =
        some out ∧
      slideRelTargets out =
        (resolvedRequests (fun _ => w1Src)
          [("A", 1), ("A", 0), ("A", 1)]).map (destPathOf out.ms) ∧
      out.sldEntries.map Prod.snd = slideRelIds out ∧
      out.sldEntries.length =
        (resolvedRequests (fun _ => w1Src) [("A", 1), ("A", 0), ("A", 1)]).length :=
  slide_sequence_follows_requests (fun _ => w1Src) "A"
    [("A", 1), ("A", 0), ("A", 1)] (by decide)

/-! ## Claim C3: masters registered at most once -/

/-- The normalized targets of the master-typed relationships of the
destination presentation. -/
def masterRelTargets (ps : PresState) : List String :=
  (ps.presRels.filter (fun r => r.type = masterRelType)).map
    (fun r => backToFwd r.target)

theorem backToFwd_idem (s : String) : backToFwd (backToFwd s) = backToFwd s := by
  unfold backToFwd
  show ofChars ((s.data.map _).map _) = ofChars (s.data.map _)
  rw [List.map_map]
  apply congrArg
  apply List.map_congr_left
  intro c _
  show (if (if c = '\\' then '/' else c) = '\\' then '/'
    else if c = '\\' then '/' else c) = if c = '\\' then '/' else c
  by_cases hc : c = '\\'
  · simp [hc]
  · simp [hc]

theorem slideRel_not_masterRel : ¬ (slideRelType = masterRelType) := by decide

/-- A resolved master path is already normalized. -/
theorem masterPathOf_normalized (st : MergeState) (sid t m : String)
    (h : masterPathOf st sid t = some m) : backToFwd m = m := by
  simp only [masterPathOf] at h
  repeat' split at h
  all_goals try cases h
  all_goals exact backToFwd_idem _

/-- The master bookkeeping invariant: no duplicate master relationship
targets, mutual coverage between them and `existing_masters`, and one
`<p:sldMasterId>` entry per master relationship. -/
def Inv3 (ps : PresState) : Prop :=
  (masterRelTargets ps).Nodup ∧
  (∀ m ∈ masterRelTargets ps, m ∈ ps.existingMasters.map backToFwd) ∧
  (∀ m ∈ ps.existingMasters.map backToFwd, m ∈ masterRelTargets ps) ∧
  ps.masterEntries.length =
    (ps.presRels.filter (fun r => r.type = masterRelType)).length

instance (ps : PresState) : Decidable (Inv3 ps) := by
  unfold Inv3
  infer_instance

/-- `_ensure_master_registered` keeps the invariant, and leaves exactly one
master relationship for the slide's master. -/
theorem ensureMaster_inv3 (ps : PresState) (sid t : String) (h : Inv3 ps) :
    Inv3 (ensureMasterRegistered ps sid t) ∧
    (∀ m, masterPathOf ps.ms sid t = some m →
      (masterRelTargets (ensureMasterRegistered ps sid t)).count m = 1) := by
  obtain ⟨hnd, hc1, hc2, hlen⟩ := h
  cases hm : masterPathOf ps.ms sid t with
  | none =>
    simp only [ensureMasterRegistered, hm]
    refine ⟨⟨hnd, hc1, hc2, hlen⟩, ?_⟩
    intro m hmm
    cases hmm
  | some m =>
    simp only [ensureMasterRegistered, hm]
    have hnorm : backToFwd m = m := masterPathOf_normalized ps.ms sid t m hm
    by_cases hreg : ps.existingMasters.any (fun e => backToFwd e = m) = true
    · rw [if_pos hreg]
      refine ⟨⟨hnd, hc1, hc2, hlen⟩, ?_⟩
      intro m' hmm
      rw [Option.some.injEq] at hmm
      subst hmm
      obtain ⟨e, he, hbe⟩ := List.any_eq_true.mp hreg
      have hmem : m ∈ ps.existingMasters.map backToFwd := by
        rw [List.mem_map]
        exact ⟨e, he, of_decide_eq_true hbe⟩
      exact List.count_eq_one_of_mem hnd (hc2 m hmem)
    · rw [if_neg hreg]
      have hnotmem : ¬ m ∈ masterRelTargets ps := by
        intro hmem
        apply hreg
        obtain ⟨e, he, hbe⟩ := List.mem_map.mp (hc1 m hmem)
        rw [List.any_eq_true]
        exact ⟨e, he, decide_eq_true hbe⟩
      have htg : masterRelTargets
          { ps with
            nextRId := ps.nextRId + 1
            presRels := ps.presRels ++
              [⟨"rId" ++ toString ps.nextRId, masterRelType, m⟩]
            masterEntries := ps.masterEntries ++ [(ps.nextMasterId, "rId" ++ toString ps.nextRId)]
            nextMasterId := ps.nextMasterId + 1
            existingMasters := ps.existingMasters ++ [m] } =
          masterRelTargets ps ++ [m] := by
        unfold masterRelTargets
        simp [List.filter_append, hnorm]
      refine ⟨⟨?_, ?_, ?_, ?_⟩, ?_⟩
      · rw [htg]
        rw [List.nodup_append]
        exact ⟨hnd, List.nodup_singleton _, by
          intro a ha hb
          rw [List.mem_singleton] at hb
          subst hb
          exact hnotmem ha⟩
      · rw [htg]
        intro m' hm'
        simp only [List.map_append]
        rcases List.mem_append.mp hm' with hx | hx
        · exact List.mem_append_left _ (hc1 m' hx)
        · rw [List.mem_singleton] at hx
          subst hx
          apply List.mem_append_right
          simp [hnorm]
      · rw [htg]
        intro m' hm'
        simp only [List.map_append] at hm'
        rcases List.mem_append.mp hm' with hx | hx
        · exact List.mem_append_left _ (hc2 m' hx)
        · simp only [List.map_cons, List.map_nil, List.mem_singleton] at hx
          rw [hnorm] at hx
          subst hx
          exact List.mem_append_right _ (List.mem_singleton.mpr rfl)
      · simp only [List.filter_append, List.length_append]
        rw [← hlen]
        simp [masterRelType]
      · intro m' hmm
        rw [Option.some.injEq] at hmm
        subst hmm
        rw [htg, List.count_append]
        have h0 : (masterRelTargets ps).count m = 0 :=
          List.count_eq_zero.mpr hnotmem
        rw [h0]
        simp

theorem appendSlideEntry_inv3 (ps : PresState) (np : String) (h : Inv3 ps) :
    Inv3 (appendSlideEntry ps np) := by
  obtain ⟨hnd, hc1, hc2, hlen⟩ := h
  have htg : masterRelTargets (appendSlideEntry ps np) = masterRelTargets ps := by
    unfold masterRelTargets appendSlideEntry
    simp [List.filter_append, slideRel_not_masterRel]
  refine ⟨htg ▸ hnd, ?_, ?_, ?_⟩
  · rw [htg]
    exact hc1
  · rw [htg]
    exact hc2
  · unfold appendSlideEntry
    simp only [List.filter_append, List.length_append]
    rw [← hlen]
    simp [slideRel_not_masterRel]

/-- The request loop preserves the master bookkeeping invariant and
completes. -/
theorem fold_inv3 (sources : String → SourcePkg) :
    ∀ (reqs : List (String × Int)) (ps : PresState),
      (∀ sid ∈ reqs.map Prod.fst, wfSource (sources sid)) →
      Inv3 ps →
      ∃ out, List.foldlM (processOneSlide sources) ps reqs = some out ∧
        Inv3 out := by
  intro reqs
  induction reqs with
  | nil =>
    intro ps _ hinv
    exact ⟨ps, rfl, hinv⟩
  | cons req rest ih =>
    intro ps hwf hinv
    rcases req with ⟨sid, idx⟩
    have hwf1 : wfSource (sources sid) := hwf sid (by simp)
    have hwfr : ∀ s ∈ rest.map Prod.fst, wfSource (sources s) :=
      fun s hs => hwf s (by simp [hs])
    rcases processOneSlide_total sources ps sid idx hwf1 with
      ⟨_, hstep⟩ | ⟨t, ms', np, _, _, hstep⟩
    · obtain ⟨out, hout, hinv'⟩ := ih ps hwfr hinv
      refine ⟨out, ?_, hinv'⟩
      rw [List.foldlM_cons, hstep]
      exact hout
    · have hinv1 : Inv3 ({ ps with ms := ms' } : PresState) := hinv
      have hinv2 := (ensureMaster_inv3 { ps with ms := ms' } sid t hinv1).1
      have hinv3 := appendSlideEntry_inv3 _ np hinv2
      obtain ⟨out, hout, hinv'⟩ := ih _ hwfr hinv3
      refine ⟨out, ?_, hinv'⟩
      rw [List.foldlM_cons, hstep]
      exact hout

/-- C3: throughout a merge session each distinct destination-relative
master path is registered at most once.  For any completed merge whose
skeleton satisfies the invariant (no duplicate master-relationship targets,
`existing_masters` seeded to exactly those targets, one `<p:sldMasterId>`
entry per master relationship), the output presentation has pairwise
distinct master-relationship targets and exactly one `<p:sldMasterId>`
entry per master relationship; and at every registration step, however many
slides resolve to the same master, the master's path ends up on exactly one
master relationship (`count = 1`). -/
theorem masters_registered_at_most_once (sources : String → SourcePkg)
    (baseId : String) (reqs : List (String × Int))
    (hwf : ∀ sid ∈ reqs.map Prod.fst, wfSource (sources sid))
    (hskel : Inv3 (initPresState (sources baseId)
      (prepareBase (sources baseId) baseId))) :
    (∃ out, processSlides sources baseId reqs = some out ∧
      (masterRelTargets out).Nodup ∧
      out.masterEntries.length =
        (out.presRels.filter (fun r => r.type = masterRelType)).length) ∧
    (∀ (ps : PresState) (sid t m : String), Inv3 ps →
      masterPathOf ps.ms sid t = some m →
      (masterRelTargets (ensureMasterRegistered ps sid t)).count m = 1) := by
  constructor
  · obtain ⟨out0, hfold, hinv⟩ := fold_inv3 sources reqs _ hwf hskel
    simp only [processSlides]
    rw [hfold]
    exact ⟨_, rfl, hinv.1, hinv.2.2.2⟩
  · intro ps sid t m hinv hm
    exact (ensureMaster_inv3 ps sid t hinv).2 m hm

/-- Witness for C3: requesting the same slide (hence the same master)
twice produces one master registration. -/
theorem masters_registered_at_most_once_witness :
    (∃ out, processSlides (fun _ => w1Src) "A" [("A", 1), ("A", 1)] = some out ∧
      (masterRelTargets out).Nodup ∧
      out.masterEntries.length =
        (out.presRels.filter (fun r => r.type = masterRelType)).length) ∧
    (∀ (ps : PresState) (sid t m : String), Inv3 ps →
      masterPathOf ps.ms sid t = some m →
      (masterRelTargets (ensureMasterRegistered ps sid t)).count m = 1) :=
  masters_registered_at_most_once (fun _ => w1Src) "A" [("A", 1), ("A", 1)]
    (by decide) (by decide)

/-! ## Claim C10: the base source is pre-seeded as identity -/

/-- The base-scan fold only appends cache bindings. -/
theorem scanFold_cache_ext (baseId : String) :
    ∀ (l : List String) (st : MergeState),
      ∃ ladd, (l.foldl (fun (st : MergeState) p =>
          { st with
            nextIds := scanFileIds st.nextIds (pathName p),
            importedParts := st.importedParts ++ [((baseId, p), p)] }) st).importedParts
        = st.importedParts ++ ladd := by
  intro l
  induction l with
  | nil => intro st; exact ⟨[], by simp⟩
  | cons p rest ih =>
    intro st
    obtain ⟨ladd, hladd⟩ := ih { st with
      nextIds := scanFileIds st.nextIds (pathName p),
      importedParts := st.importedParts ++ [((baseId, p), p)] }
    exact ⟨((baseId, p), p) :: ladd, by
      rw [List.foldl_cons, hladd]
      simp⟩

/-- Every `ppt/` part of the base source is seeded as an identity mapping
by `_scan_base_content`. -/
theorem prepareBase_cache (base : SourcePkg) (baseId : String) :
    ∀ p ∈ base.pptParts,
      lookupA (prepareBase base baseId).importedParts (baseId, p) = some p := by
  have hval : ∀ (l : List String) (st : MergeState),
      (∀ q v, lookupA st.importedParts (baseId, q) = some v → v = q) →
      ∀ q v, lookupA (l.foldl (fun (st : MergeState) p =>
          { st with
            nextIds := scanFileIds st.nextIds (pathName p),
            importedParts := st.importedParts ++ [((baseId, p), p)] }) st).importedParts
          (baseId, q) = some v → v = q := by
    intro l
    induction l with
    | nil => intro st hst; exact hst
    | cons p rest ih =>
      intro st hst
      apply ih
      intro q v hv
      cases hq : lookupA st.importedParts (baseId, q) with
      | some w =>
        rw [lookupA_append_some _ _ _ _ hq] at hv
        rw [Option.some.injEq] at hv
        exact hv ▸ hst q w hq
      | none =>
        rw [lookupA_append_none _ _ _ hq] at hv
        simp only [lookupA] at hv
        split at hv
        · next heq =>
          rw [Option.some.injEq] at hv
          rw [Prod.mk.injEq] at heq
          rw [← hv, heq.2]
        · cases hv
  have hsome : ∀ (l : List String) (st : MergeState) (q : String), q ∈ l →
      (lookupA (l.foldl (fun (st : MergeState) p =>
          { st with
            nextIds := scanFileIds st.nextIds (pathName p),
            importedParts := st.importedParts ++ [((baseId, p), p)] }) st).importedParts
        (baseId, q)).isSome := by
    intro l
    induction l with
    | nil => intro st q hq; cases hq
    | cons p rest ih =>
      intro st q hq
      rcases List.mem_cons.mp hq with hq1 | hq1
      · subst hq1
        rw [List.foldl_cons]
        obtain ⟨ladd, hladd⟩ := scanFold_cache_ext baseId rest
          { st with
            nextIds := scanFileIds st.nextIds (pathName q),
            importedParts := st.importedParts ++ [((baseId, q), q)] }
        rw [hladd]
        cases hl : lookupA st.importedParts (baseId, q) with
        | some w =>
          rw [show ({ st with
              nextIds := scanFileIds st.nextIds (pathName q),
              importedParts := st.importedParts ++ [((baseId, q), q)] }
                : MergeState).importedParts ++ ladd =
              st.importedParts ++ ([((baseId, q), q)] ++ ladd) by simp]
          rw [lookupA_append_some _ _ _ _ hl]
          rfl
        | none =>
          rw [show ({ st with
              nextIds := scanFileIds st.nextIds (pathName q),
              importedParts := st.importedParts ++ [((baseId, q), q)] }
                : MergeState).importedParts ++ ladd =
              st.importedParts ++ (((baseId, q), q) :: ladd) by simp]
          rw [lookupA_append_none _ _ _ hl]
          simp [lookupA]
      · rw [List.foldl_cons]
        exact ih _ q hq1
  intro p hp
  have h2 := hsome base.pptParts
    { importedParts := [], importedContentTypes := [], nextIds := fun _ => 1,
      workFiles := base.files, workRels := base.relsOf, ctDoc := base.ctDoc }
    p hp
  obtain ⟨v, hv⟩ := Option.isSome_iff_exists.mp h2
  unfold prepareBase
  rw [hv, hval base.pptParts _ (by intro q v hq; cases hq) p v hv]

/-- The base-scan fold never touches the working-tree file list. -/
theorem scanFold_workFiles (baseId : String) :
    ∀ (l : List String) (st : MergeState),
      (l.foldl (fun (st : MergeState) p =>
        { st with
          nextIds := scanFileIds st.nextIds (pathName p),
          importedParts := st.importedParts ++ [((baseId, p), p)] }) st).workFiles
      = st.workFiles := by
  intro l
  induction l with
  | nil => intro st; rfl
  | cons p rest ih =>
    intro st
    rw [List.foldl_cons]
    exact ih _

/-- After `_prepare_base` / `_scan_base_content` the working tree holds
exactly the files of the base extraction. -/
theorem prepareBase_workFiles (base : SourcePkg) (baseId : String) :
    (prepareBase base baseId).workFiles = base.files :=
  scanFold_workFiles baseId base.pptParts
    { importedParts := [], importedContentTypes := [], nextIds := fun _ => 1,
      workFiles := base.files, workRels := base.relsOf, ctDoc := base.ctDoc }

/-- C10: every `ppt/` part of the base source is pre-seeded into
the import cache as an identity mapping; consequently an `_import_part` call
for any such part (at any positive fuel, for any category) returns the
original path unchanged from the cache without touching the merge state —
no rename, no copy, no relationship rewriting; and for any well-formed
request list the merge completes with a working tree (hence output
archive, `_repackage` writing exactly the working-tree files) that still
contains every file of the base source package, requested or not. -/
theorem base_identity_preseed (sources : String → SourcePkg) (baseId : String)
    (reqs : List (String × Int))
    (hwf : ∀ sid ∈ reqs.map Prod.fst, wfSource (sources sid)) :
    (∀ p ∈ (sources baseId).pptParts,
      lookupA (prepareBase (sources baseId) baseId).importedParts (baseId, p)
        = some p) ∧
    (∀ p ∈ (sources baseId).pptParts, strStarts "/" p = false →
      ∀ fuel t, importPartF (fuel + 1) (sources baseId) baseId
          (prepareBase (sources baseId) baseId) p t
        = some (prepareBase (sources baseId) baseId, p)) ∧
    ∃ out, processSlides sources baseId reqs = some out ∧
      ∀ f ∈ (sources baseId).files, f ∈ out.ms.workFiles := by
  refine ⟨prepareBase_cache (sources baseId) baseId, ?_, ?_⟩
  · intro p hp hns fuel t
    have hc := prepareBase_cache (sources baseId) baseId p hp
    have hsl : stripLead p = p := by simp [stripLead, hns]
    have hc2 : lookupA (prepareBase (sources baseId) baseId).importedParts
        (baseId, stripLead p) = some p := by rw [hsl]; exact hc
    simp [importPartF, hc2]
  · obtain ⟨out0, hfold, hmg, -, -⟩ := fold_slide_seq sources reqs
      (initPresState (sources baseId) (prepareBase (sources baseId) baseId)) hwf
    simp only [processSlides]
    rw [hfold]
    refine ⟨_, rfl, ?_⟩
    intro f hf
    have h1 : f ∈ (prepareBase (sources baseId) baseId).workFiles := by
      rw [prepareBase_workFiles]
      exact hf
    exact hmg.files_sub f h1

/-- Witness for C10: the concrete well-formed single-source merge. -/
theorem base_identity_preseed_witness :
    (∀ p ∈ w1Src.pptParts,
      lookupA (prepareBase w1Src "A").importedParts ("A", p) = some p) ∧
    (∀ p ∈ w1Src.pptParts, strStarts "/" p = false →
      ∀ fuel t, importPartF (fuel + 1) w1Src "A" (prepareBase w1Src "A") p t
        = some (prepareBase w1Src "A", p)) ∧
    ∃ out, processSlides (fun _ => w1Src) "A" [("A", 1)] = some out ∧
      ∀ f ∈ w1Src.files, f ∈ out.ms.workFiles :=
  base_identity_preseed (fun _ => w1Src) "A" [("A", 1)] (by decide)

/-! ## Claim C5: content-type coverage of the output archive -/

theorem mem_addFile_cases (fs : List String) (f g : String)
    (h : g ∈ addFile fs f) : g ∈ fs ∨ g = f := by
  unfold addFile at h
  split at h
  · exact Or.inl h
  · rcases List.mem_append.mp h with h1 | h1
    · exact Or.inl h1
    · exact Or.inr (List.mem_singleton.mp h1)

theorem strEq_of_data {s t : String} (h : s.data = t.data) : s = t := by
  cases s
  cases t
  exact congrArg String.mk h

theorem str_ne_empty_mid (s : String) (l₁ : List Char) (c : Char) (l₂ : List Char)
    (h : s.data = l₁ ++ c :: l₂) : ¬ s = "" := by
  intro he
  subst he
  rw [show ("" : String).data = ([] : List Char) from rfl] at h
  cases l₁ <;> exact absurd h (by simp)

theorem noSlash_iff (s : String) : noSlash s = true ↔ ¬ '/' ∈ s.data := by
  unfold noSlash
  simp only [Bool.not_eq_true']
  constructor
  · intro h hm
    have hel := List.elem_eq_true_of_mem hm
    rw [show s.data.elem '/' = s.data.contains '/' from rfl, h] at hel
    cases hel
  · intro h
    cases hc : s.data.contains '/' with
    | false => rfl
    | true => exact absurd (List.mem_of_elem_eq_true hc) h

theorem noSlash_append (a b : String) (ha : noSlash a = true)
    (hb : noSlash b = true) : noSlash (a ++ b) = true := by
  rw [noSlash_iff] at ha hb ⊢
  intro hm
  rw [str_append_data] at hm
  rcases List.mem_append.mp hm with h | h
  · exact ha h
  · exact hb h

theorem noSlash_pathName (p : String) : noSlash (pathName p) = true := by
  have h := splitPath_noSlash p
  unfold noSlashAll at h
  rw [List.all_eq_true] at h
  unfold pathName
  cases hsp : splitPath p with
  | nil => exact absurd hsp (splitPath_ne_nil p)
  | cons a l =>
    apply h
    rw [hsp, List.getLastD_cons]
    exact List.getLastD_mem_cons _ _

theorem ofChars_data (l : List Char) : (ofChars l).data = l := rfl

theorem noSlash_pySuffix (p : String) : noSlash (pySuffix p) = true := by
  have hpn := noSlash_pathName p
  rw [noSlash_iff] at hpn ⊢
  intro hm
  simp only [pySuffix] at hm
  split at hm
  · simp [ofChars] at hm
  · split at hm
    · simp [ofChars] at hm
    · split at hm
      · simp [ofChars] at hm
      · rw [ofChars_data] at hm
        rcases List.mem_cons.mp hm with h | h
        · cases h
        · apply hpn
          have h1 : '/' ∈ (pathName p).data.reverse :=
            (List.takeWhile_sublist _).subset (List.mem_reverse.mp h)
          exact List.mem_reverse.mp h1

theorem noSlash_pyStem (p : String) : noSlash (pyStem p) = true := by
  have hpn := noSlash_pathName p
  rw [noSlash_iff] at hpn ⊢
  intro hm
  simp only [pyStem] at hm
  rw [ofChars_data] at hm
  exact hpn (List.take_subset _ _ hm)

theorem noSlash_rstripEss (s : String) (h : noSlash s = true) :
    noSlash (rstripEss s) = true := by
  rw [noSlash_iff] at h ⊢
  intro hm
  unfold rstripEss at hm
  rw [ofChars_data] at hm
  apply h
  have h1 : '/' ∈ s.data.reverse :=
    (List.dropWhile_sublist _).subset (List.mem_reverse.mp hm)
  exact List.mem_reverse.mp h1

theorem digitChar_ne_slash (m : Nat) : ¬ Nat.digitChar m = '/' := by
  intro h
  unfold Nat.digitChar at h
  rcases Nat.lt_or_ge m 16 with hm | hm
  · interval_cases m <;> exact absurd h (by decide)
  · repeat rw [if_neg (by omega)] at h
    exact absurd h (by decide)

theorem toDigitsCore_no_slash :
    ∀ (f n : Nat) (ds : List Char), (∀ c ∈ ds, ¬ c = '/') →
      ∀ c ∈ Nat.toDigitsCore 10 f n ds, ¬ c = '/' := by
  intro f
  induction f with
  | zero =>
    intro n ds hds
    simpa [Nat.toDigitsCore] using hds
  | succ f ih =>
    intro n ds hds c hc
    simp only [Nat.toDigitsCore] at hc
    split at hc
    · rcases List.mem_cons.mp hc with h | h
      · exact h ▸ digitChar_ne_slash _
      · exact hds c h
    · refine ih _ _ ?_ c hc
      intro c' hc'
      rcases List.mem_cons.mp hc' with h | h
      · exact h ▸ digitChar_ne_slash _
      · exact hds c' h

theorem toDigitsCore_ne_nil :
    ∀ (f n : Nat) (ds : List Char), ¬ Nat.toDigitsCore 10 (f + 1) n ds = [] := by
  intro f
  induction f with
  | zero =>
    intro n ds h
    simp only [Nat.toDigitsCore] at h
    split at h <;> cases h
  | succ f ih =>
    intro n ds h
    simp only [Nat.toDigitsCore] at h
    split at h
    · cases h
    · exact ih _ _ h

theorem toStringNat_data (n : Nat) :
    (toString n).data = Nat.toDigitsCore 10 (n + 1) n [] := rfl

theorem toStringNat_no_slash (n : Nat) : noSlash (toString n) = true := by
  rw [noSlash_iff, toStringNat_data]
  intro hm
  exact toDigitsCore_no_slash (n + 1) n [] (by intro c hc; cases hc) '/' hm rfl

theorem toStringNat_data_ne_nil (n : Nat) : ¬ (toString n).data = [] := by
  rw [toStringNat_data]
  exact toDigitsCore_ne_nil n n []

theorem pathName_eq_of_data (x cat name : String)
    (hx : x.data = cat.data ++ '/' :: name.data)
    (hc : noSlash cat = true) (hn : noSlash name = true) :
    pathName x = name := by
  unfold pathName splitPath
  rw [hx, splitChars_append_slash _ _ ((noSlash_iff cat).mp hc),
      splitChars_of_noSlash _ ((noSlash_iff name).mp hn)]
  exact ofChars_chars name

theorem pathName_of_noSlash (s : String) (h : noSlash s = true) :
    pathName s = s := by
  unfold pathName splitPath
  rw [splitChars_of_noSlash _ ((noSlash_iff s).mp h)]
  exact ofChars_chars s

set_option maxHeartbeats 1000000 in
theorem targetType_no_slash (ty tgt : String) :
    noSlash (getRelationshipTargetType ty tgt) = true := by
  unfold getRelationshipTargetType
  repeat' split
  all_goals try decide
  all_goals dsimp only
  all_goals repeat' split
  all_goals decide

/-- Every name `_import_part` allocates has a non-empty final component. -/
theorem pathName_allocPath (st : MergeState) (p t : String)
    (ht : noSlash t = true) :
    ¬ pathName (allocPath st p t) = "" := by
  have hext := noSlash_pySuffix p
  simp only [allocPath]
  by_cases h1 : t = "media"
  · rw [if_pos h1]
    rw [pathName_eq_of_data _ "media"
        ("image" ++ toString (st.nextIds "media") ++ pySuffix p)
        (by simp [str_append_data, List.append_assoc, List.cons_append,
              List.singleton_append]) (by decide)
        (noSlash_append _ _
          (noSlash_append "image" _ (by decide) (toStringNat_no_slash _)) hext)]
    apply str_ne_empty_mid _ [] 'i'
      ("mage".data ++ ((toString (st.nextIds "media")).data ++ (pySuffix p).data))
    simp [str_append_data, List.append_assoc, List.cons_append,
      List.singleton_append]
  · rw [if_neg h1]
    by_cases h2 : t = "unknown"
    · rw [if_pos h2]
      rw [pathName_eq_of_data _ "other"
          (pyStem p ++ "_" ++ toString (st.nextIds "unknown") ++ pySuffix p)
          (by simp [str_append_data, List.append_assoc, List.cons_append,
                List.singleton_append]) (by decide)
          (noSlash_append _ _
            (noSlash_append _ _
              (noSlash_append _ "_" (noSlash_pyStem p) (by decide))
              (toStringNat_no_slash _)) hext)]
      apply str_ne_empty_mid _ (pyStem p).data '_'
        ((toString (st.nextIds "unknown")).data ++ (pySuffix p).data)
      simp [str_append_data, List.append_assoc, List.cons_append,
        List.singleton_append]
    · rw [if_neg h2]
      cases hnd : (toString (st.nextIds (rstripEss t))).data with
      | nil => exact absurd hnd (toStringNat_data_ne_nil _)
      | cons c cs =>
        rw [pathName_eq_of_data _ t
            (rstripEss t ++ toString (st.nextIds (rstripEss t)) ++ pySuffix p)
            (by simp [str_append_data, List.append_assoc, List.cons_append,
                  List.singleton_append]) ht
            (noSlash_append _ _
              (noSlash_append _ _ (noSlash_rstripEss t ht)
                (toStringNat_no_slash _)) hext)]
        apply str_ne_empty_mid _ (rstripEss t).data c (cs ++ (pySuffix p).data)
        simp [str_append_data, hnd, List.append_assoc, List.cons_append,
          List.singleton_append]

theorem pySuffix_name_rels (f stem : String) (hne : ¬ stem = "")
    (hpn : pathName f = stem ++ ".rels") : pySuffix f = ".rels" := by
  have hsd : ¬ stem.data = [] := by
    intro hh
    exact hne (strEq_of_data (by rw [hh]))
  have hdat : (stem ++ ".rels").data = stem.data ++ ['.', 'r', 'e', 'l', 's'] := by
    rw [str_append_data]
  have hafter : ((stem.data ++ ['.', 'r', 'e', 'l', 's']).reverse.takeWhile
      (fun c => c ≠ '.')).reverse = ['r', 'e', 'l', 's'] := by
    rw [List.reverse_append]
    rfl
  simp only [pySuffix, hpn, hdat, hafter]
  rw [if_neg ?h1, if_neg ?h2, if_neg ?h3]
  case h1 =>
    simp only [List.length_append, List.length_cons, List.length_nil]
    omega
  case h2 => decide
  case h3 =>
    have hlen : 0 < stem.data.length := List.length_pos.mpr hsd
    simp only [List.length_append, List.length_cons, List.length_nil]
    omega
  all_goals rfl

theorem extKey_rels (f : String) (h : pySuffix f = ".rels") :
    extKey f = "rels" := by
  unfold extKey
  rw [h]
  rfl

/-- The `.rels` sidecar written next to an imported part has extension key
`rels`. -/
theorem sidecar_extKey (npp : String) (h : ¬ pathName npp = "") :
    extKey ("ppt/" ++ joinPath (parentComps npp ++
      ["_rels", pathName npp ++ ".rels"])) = "rels" := by
  have hnsx := noSlash_pathName npp
  generalize hgen : pathName npp = x at h hnsx ⊢
  have hl_ne : ¬ (parentComps npp ++ ["_rels", x ++ ".rels"])
      = ([] : List String) := by
    intro hh
    have := congrArg List.length hh
    simp only [List.length_append, List.length_cons, List.length_nil] at this
    omega
  have hns : noSlashAll (parentComps npp ++ ["_rels", x ++ ".rels"]) = true := by
    unfold noSlashAll
    rw [List.all_eq_true]
    intro c hc
    rcases List.mem_append.mp hc with h1 | h1
    · have h2 := noSlashAll_dropLast (splitPath_noSlash npp)
      unfold noSlashAll at h2
      rw [List.all_eq_true] at h2
      exact h2 c h1
    · rcases List.mem_cons.mp h1 with h2 | h2
      · subst h2; decide
      · rw [List.mem_singleton.mp h2]
        exact noSlash_append _ _ hnsx (by decide)
  have hjoin : "ppt/" ++ joinPath (parentComps npp ++ ["_rels", x ++ ".rels"])
      = joinPath ("ppt" :: (parentComps npp ++ ["_rels", x ++ ".rels"])) :=
    (joinPath_ppt_cons _ hl_ne).symm
  have hsp : splitPath (joinPath ("ppt" :: (parentComps npp ++
        ["_rels", x ++ ".rels"])))
      = "ppt" :: (parentComps npp ++ ["_rels", x ++ ".rels"]) := by
    apply splitPath_joinPath _ (by simp)
    unfold noSlashAll at hns ⊢
    rw [List.all_eq_true] at hns ⊢
    intro c hc
    rcases List.mem_cons.mp hc with h1 | h1
    · subst h1; decide
    · exact hns c h1
  have hpn : pathName ("ppt/" ++ joinPath (parentComps npp ++
        ["_rels", x ++ ".rels"]))
      = x ++ ".rels" := by
    rw [hjoin]
    unfold pathName
    rw [hsp]
    rw [show ("ppt" :: (parentComps npp ++ ["_rels", x ++ ".rels"]))
        = ("ppt" :: parentComps npp ++ ["_rels"]) ++ [x ++ ".rels"]
      from by simp]
    exact List.getLastD_concat _ _ _
  exact extKey_rels _ (pySuffix_name_rels _ _ h hpn)

/-- Invariant of the merge state across imports: every working-tree file is
a file of the base extraction, a `.rels` relationship sidecar, or has its
content type recorded under its part name in `imported_content_types`. -/
def Tracked (bf : List String) (m : MergeState) : Prop :=
  ∀ f ∈ m.workFiles, f ∈ bf ∨ extKey f = "rels" ∨
    ("/" ++ f) ∈ m.importedContentTypes.map Prod.fst

theorem copyRecord_fields (src : SourcePkg) (srcId : String) (st : MergeState)
    (pp npp : String) :
    (copyRecord src srcId st pp npp).workFiles =
      addFile st.workFiles ("ppt/" ++ npp) ∧
    ((getSourceContentType src pp).isSome = true →
      ("/ppt/" ++ npp) ∈
        (copyRecord src srcId st pp npp).importedContentTypes.map Prod.fst) ∧
    (∀ k ∈ st.importedContentTypes.map Prod.fst,
      k ∈ (copyRecord src srcId st pp npp).importedContentTypes.map Prod.fst) := by
  unfold copyRecord
  cases hgc : getSourceContentType src pp with
  | none =>
    refine ⟨rfl, ?_, fun k hk => hk⟩
    intro hh
    simp at hh
  | some ct =>
    refine ⟨rfl, ?_, ?_⟩
    · intro _
      rw [setAssoc_keys]
      exact Or.inr rfl
    · intro k hk
      rw [setAssoc_keys]
      exact Or.inl hk

/-- The relationship loop preserves the tracking invariant, provided
the import function it recurses through does. -/
theorem tracked_processRelListF (bf : List String) (src : SourcePkg)
    (imp : MergeState → String → String → Option (MergeState × String))
    (hppt : src.files.contains "ppt" = false)
    (himpT : ∀ s p t s' r, okPath src p → noSlash t = true → Tracked bf s →
      imp s p t = some (s', r) → Tracked bf s') :
    ∀ (rels : List XRel) (old new : String) (acc : List XRel)
      (st st' : MergeState),
      cleanComps (parentComps old) = true →
      extKey ("ppt/" ++ joinPath (parentComps new ++
        ["_rels", pathName new ++ ".rels"])) = "rels" →
      Tracked bf st →
      processRelListF imp old new rels acc st = some st' →
      Tracked bf st' := by
  intro rels
  induction rels with
  | nil =>
    intro old new acc st st' hclean hside htr h
    simp only [processRelListF, Option.some.injEq] at h
    subst h
    intro f hf
    rcases mem_addFile_cases _ _ _ hf with h1 | h1
    · rcases htr f h1 with ha | hb | hc
      · exact Or.inl ha
      · exact Or.inr (Or.inl hb)
      · exact Or.inr (Or.inr hc)
    · exact Or.inr (Or.inl (h1 ▸ hside))
  | cons r rs ih =>
    intro old new acc st st' hclean hside htr h
    simp only [processRelListF] at h
    split at h
    · next rest hres =>
      split at h
      · cases h
      · next st₂ rr heq =>
        have hacc_clean : cleanComps ("ppt" :: parentComps old) = true := by
          unfold cleanComps at hclean ⊢
          simp [hclean, cleanComp]
        have hacc_ns : noSlashAll ("ppt" :: parentComps old) = true := by
          have h1 : noSlashAll (parentComps old) = true :=
            noSlashAll_dropLast (splitPath_noSlash old)
          unfold noSlashAll at h1 ⊢
          simp [h1, noSlash]
        have hout : cleanComps ("ppt" :: rest) = true ∧
            noSlashAll ("ppt" :: rest) = true := by
          by_cases hb : strStarts "/" r.target = true
          · rw [if_pos hb] at hres
            exact ⟨resolveComps_out_clean _ _ _ (by simp [cleanComps]) hres,
              resolveComps_out_noSlash _ _ _ (by simp [noSlashAll])
                (splitPath_noSlash _) hres⟩
          · rw [if_neg hb] at hres
            exact ⟨resolveComps_out_clean _ _ _ hacc_clean hres,
              resolveComps_out_noSlash _ _ _ hacc_ns (splitPath_noSlash _) hres⟩
        have hok : okPath src (if rest = [] then "." else joinPath rest) := by
          by_cases hrest : rest = []
          · rw [if_pos hrest]
            right
            have hdot : existsInSource src (stripLead ".") =
                src.files.contains "ppt" := rfl
            rw [hdot, hppt]
          · rw [if_neg hrest]
            left
            have hrc : cleanComps rest = true := by
              have hh := hout.1
              unfold cleanComps at hh ⊢
              simp only [List.all_cons, Bool.and_eq_true] at hh
              exact hh.2
            have hrns : noSlashAll rest = true := by
              have hh := hout.2
              unfold noSlashAll at hh ⊢
              simp only [List.all_cons, Bool.and_eq_true] at hh
              exact hh.2
            have hstrip : stripLead (joinPath rest) = joinPath rest := by
              unfold stripLead
              cases rest with
              | nil => exact absurd rfl hrest
              | cons x xs =>
                have hxne : ¬ x = "" := by
                  unfold cleanComps at hrc
                  simp only [List.all_cons, Bool.and_eq_true] at hrc
                  exact (cleanComp_spec hrc.1).1 ∘ Or.inl
                have hxns : noSlash x = true := by
                  unfold noSlashAll at hrns
                  simp only [List.all_cons, Bool.and_eq_true] at hrns
                  exact hrns.1
                rw [strStarts_slash_false x xs hxne hxns]
                simp
            rw [hstrip, splitPath_joinPath rest hrest hrns]
            exact hrc
        exact ih old new _ st₂ st' hclean hside
          (himpT st _ _ st₂ rr hok (targetType_no_slash _ _) htr heq) h
    · exact ih old new _ st st' hclean hside htr h

/-- `_import_part` preserves the tracking invariant whenever every part of
the source declares a content type. -/
theorem tracked_importPartF (bf : List String) (src : SourcePkg)
    (srcId : String)
    (hppt : src.files.contains "ppt" = false)
    (hct : ∀ q ∈ src.pptParts, (getSourceContentType src q).isSome = true) :
    ∀ (fuel : Nat) (st : MergeState) (p t : String) (st' : MergeState)
      (r : String),
      okPath src p → noSlash t = true → Tracked bf st →
      importPartF fuel src srcId st p t = some (st', r) →
      Tracked bf st' := by
  intro fuel
  induction fuel with
  | zero =>
    intro st p t st' r _ _ _ h
    exact absurd h (by simp [importPartF])
  | succ fuel ih =>
    intro st p t st' r hok hnt htr h
    simp only [importPartF] at h
    split at h
    · simp only [Option.some.injEq, Prod.mk.injEq] at h
      exact h.1 ▸ htr
    · next hmiss =>
      split at h
      · next hnex =>
        simp only [Option.some.injEq, Prod.mk.injEq] at h
        obtain ⟨h1, h2⟩ := h
        subst h1
        exact htr
      · next hex =>
        have hex' : existsInSource src (stripLead p) = true := by
          revert hex
          by_cases hb : existsInSource src (stripLead p) = true <;> simp [hb]
        have hclean : cleanComps (splitPath (stripLead p)) = true := by
          rcases hok with hcl | hne
          · exact hcl
          · rw [hex'] at hne; cases hne
        have hmem : ("ppt/" ++ stripLead p) ∈ src.files :=
          (existsInSource_clean src (stripLead p) hclean).mp hex'
        have hpptm : stripLead p ∈ src.pptParts := mem_pptParts src _ hmem
        have hcts := hct _ hpptm
        have hcf := copyRecord_fields src srcId
          { st with nextIds := allocIds st t } (stripLead p)
          (allocPath st (stripLead p) t)
        have htr3 : Tracked bf (copyRecord src srcId
            { st with nextIds := allocIds st t } (stripLead p)
            (allocPath st (stripLead p) t)) := by
          intro f hf
          rw [hcf.1] at hf
          rcases mem_addFile_cases _ _ _ hf with h1 | h1
          · rcases htr f h1 with ha | hb | hc
            · exact Or.inl ha
            · exact Or.inr (Or.inl hb)
            · exact Or.inr (Or.inr (hcf.2.2 _ hc))
          · subst h1
            exact Or.inr (Or.inr (hcf.2.1 hcts))
        split at h
        · split at h
          · simp only [Option.some.injEq, Prod.mk.injEq] at h
            obtain ⟨h1, h2⟩ := h
            subst h1
            exact htr3
          · split at h
            · cases h
            · next st4 heq4 =>
              simp only [Option.some.injEq, Prod.mk.injEq] at h
              obtain ⟨h1, h2⟩ := h
              subst h1
              exact tracked_processRelListF bf src _ hppt
                (fun s pp tt s' rr hok2 hnt2 htr2 hh =>
                  ih s pp tt s' rr hok2 hnt2 htr2 hh)
                _ (stripLead p) (allocPath st (stripLead p) t) _ _ _
                (cleanComps_dropLast hclean)
                (sidecar_extKey _ (pathName_allocPath st (stripLead p) t hnt))
                htr3 heq4
        · simp only [Option.some.injEq, Prod.mk.injEq] at h
          obtain ⟨h1, h2⟩ := h
          subst h1
          exact htr3

/-- One request-loop iteration preserves tracking and leaves the
content-types document untouched. -/
theorem tracked_processOneSlide (sources : String → SourcePkg)
    (bf : List String) (ps ps' : PresState) (sid : String) (idx : Int)
    (hwf : wfSource (sources sid))
    (hct : ∀ q ∈ (sources sid).pptParts,
      (getSourceContentType (sources sid) q).isSome = true)
    (htr : Tracked bf ps.ms)
    (h : processOneSlide sources ps (sid, idx) = some ps') :
    Tracked bf ps'.ms ∧ ps'.ms.ctDoc = ps.ms.ctDoc := by
  unfold processOneSlide at h
  split at h
  · simp only [Option.some.injEq] at h
    subst h
    exact ⟨htr, rfl⟩
  · next t hres =>
    split at h
    · cases h
    · next ms' np heqi =>
      simp only [Option.some.injEq] at h
      have hok : okPath (sources sid) t := by
        unfold resolveReq at hres
        split at hres
        · cases hres
        · next t' heq =>
          split at hres
          · cases hres
          · obtain ⟨r, hr, hrt⟩ := getSourceSlidePart_mem_rels _ _ _ heq
            cases hres
            exact hrt ▸ hwf.2 r hr
      have hT := tracked_importPartF bf (sources sid) sid hwf.1 hct
        (importFuel (sources sid)) ps.ms t "slides" ms' np hok (by decide)
        htr heqi
      have hctq : ms'.ctDoc = ps.ms.ctDoc := by
        cases hfu : importFuel (sources sid) with
        | zero => rw [hfu] at heqi; exact absurd heqi (by simp [importPartF])
        | succ n =>
          rw [hfu] at heqi
          exact (grows_importPartF (n + 1) (sources sid) sid ps.ms t "slides"
            ms' np heqi).ct_eq
      have hms : ps'.ms = ms' := by
        rw [← h]
        rw [(appendSlideEntry_parts
          (ensureMasterRegistered { ps with ms := ms' } sid t) np).2.2.2]
        rw [(ensureMaster_parts_fixed { ps with ms := ms' } sid t).2.2.1]
      rw [hms, hctq]
      exact ⟨hT, rfl⟩

/-- The request loop preserves tracking and the content-types document. -/
theorem tracked_fold (sources : String → SourcePkg) (bf : List String) :
    ∀ (reqs : List (String × Int)) (ps : PresState),
      (∀ sid ∈ reqs.map Prod.fst, wfSource (sources sid)) →
      (∀ sid ∈ reqs.map Prod.fst, ∀ q ∈ (sources sid).pptParts,
        (getSourceContentType (sources sid) q).isSome = true) →
      Tracked bf ps.ms →
      ∀ out, List.foldlM (processOneSlide sources) ps reqs = some out →
        Tracked bf out.ms ∧ out.ms.ctDoc = ps.ms.ctDoc := by
  intro reqs
  induction reqs with
  | nil =>
    intro ps _ _ htr out h
    simp only [List.foldlM_nil] at h
    cases h
    exact ⟨htr, rfl⟩
  | cons req rest ih =>
    intro ps hwf hct htr out h
    rcases req with ⟨sid, idx⟩
    rw [List.foldlM_cons] at h
    cases h1 : processOneSlide sources ps (sid, idx) with
    | none =>
      rw [h1] at h
      cases h
    | some ps1 =>
      rw [h1] at h
      obtain ⟨hT1, hC1⟩ := tracked_processOneSlide sources bf ps ps1 sid idx
        (hwf sid (by simp)) (hct sid (by simp)) htr h1
      obtain ⟨hT2, hC2⟩ := ih ps1 (fun s hs => hwf s (by simp [hs]))
        (fun s hs => hct s (by simp [hs])) hT1 out h
      exact ⟨hT2, hC2.trans hC1⟩

/-- The base-scan fold never touches the content-types document. -/
theorem scanFold_ctDoc (baseId : String) :
    ∀ (l : List String) (st : MergeState),
      (l.foldl (fun (st : MergeState) p =>
        { st with
          nextIds := scanFileIds st.nextIds (pathName p),
          importedParts := st.importedParts ++ [((baseId, p), p)] }) st).ctDoc
      = st.ctDoc := by
  intro l
  induction l with
  | nil => intro st; rfl
  | cons p rest ih =>
    intro st
    rw [List.foldl_cons]
    exact ih _

theorem prepareBase_ctDoc (base : SourcePkg) (baseId : String) :
    (prepareBase base baseId).ctDoc = base.ctDoc :=
  scanFold_ctDoc baseId base.pptParts
    { importedParts := [], importedContentTypes := [], nextIds := fun _ => 1,
      workFiles := base.files, workRels := base.relsOf, ctDoc := base.ctDoc }

/-- Coverage of an archive entry by a content-types document, as the claim
states it: a `Default` entry matching the entry's (lowercased) extension,
or an `Override` entry matching its part name. -/
def coveredBy (d : CTDoc) (f : String) : Prop :=
  (∃ e ∈ d.defaults, lowerStr e.1 = extKey f) ∨
  (∃ o ∈ d.overrides, o.1 = "/" ++ f)

instance (d : CTDoc) (f : String) : Decidable (coveredBy d f) := by
  unfold coveredBy
  infer_instance

theorem ensurePres_defaults (d : CTDoc) :
    (ensurePresOverride d).defaults = d.defaults := by
  unfold ensurePresOverride
  split <;> rfl

theorem ensurePres_keys (d : CTDoc) (k : String)
    (h : k ∈ d.overrides.map Prod.fst) :
    k ∈ (ensurePresOverride d).overrides.map Prod.fst := by
  unfold ensurePresOverride
  split
  · exact h
  · simp only [List.map_append]
    exact List.mem_append_left _ h

theorem updateCT_defaults (doc : CTDoc) (l : List (String × String)) :
    (updateContentTypes doc l).defaults = doc.defaults := by
  unfold updateContentTypes
  rw [ensurePres_defaults, updateCT_fold_defaults]

theorem updateCT_keys_sup (doc : CTDoc) (l : List (String × String))
    (k : String)
    (h : k ∈ doc.overrides.map Prod.fst ∨ k ∈ l.map Prod.fst) :
    k ∈ (updateContentTypes doc l).overrides.map Prod.fst := by
  unfold updateContentTypes
  exact ensurePres_keys _ _ ((updateCT_fold_keys l doc k).mpr h)

theorem coveredBy_updateCT (doc : CTDoc) (l : List (String × String))
    (f : String) (h : coveredBy doc f) :
    coveredBy (updateContentTypes doc l) f := by
  rcases h with ⟨e, he, hle⟩ | ⟨o, ho, hoe⟩
  · exact Or.inl ⟨e, by rw [updateCT_defaults]; exact he, hle⟩
  · right
    have hk : ("/" ++ f) ∈ (updateContentTypes doc l).overrides.map Prod.fst :=
      updateCT_keys_sup doc l _ (Or.inl (List.mem_map.mpr ⟨o, ho, hoe⟩))
    obtain ⟨o', ho', hoe'⟩ := List.mem_map.mp hk
    exact ⟨o', ho', hoe'⟩

/-- C5: after a successful merge, every file entry written into the output
ZIP archive (`_repackage` writes exactly the working-tree files) is covered
by the destination's content-types document — a `Default` entry matching
its extension or an `Override` entry matching its part name — under the
well-formedness the code relies on: sources are importable (`wfSource`),
every `ppt/` part of each requested source declares a content type in its
own `[Content_Types].xml`, the skeleton's content-types document covers the
skeleton's own files, and it carries the mandatory `.rels` `Default`. -/
theorem output_parts_covered (sources : String → SourcePkg) (baseId : String)
    (reqs : List (String × Int))
    (hwf : ∀ sid ∈ reqs.map Prod.fst, wfSource (sources sid))
    (hct : ∀ sid ∈ reqs.map Prod.fst, ∀ q ∈ (sources sid).pptParts,
      (getSourceContentType (sources sid) q).isSome = true)
    (hbase : ∀ f ∈ (sources baseId).files, coveredBy (sources baseId).ctDoc f)
    (hrels : ∃ e ∈ (sources baseId).ctDoc.defaults, lowerStr e.1 = "rels") :
    ∃ out, processSlides sources baseId reqs = some out ∧
      ∀ f ∈ repackage out.ms, coveredBy out.ms.ctDoc f := by
  obtain ⟨out0, hfold, hmg, -, -⟩ := fold_slide_seq sources reqs
    (initPresState (sources baseId) (prepareBase (sources baseId) baseId)) hwf
  have htr0 : Tracked (sources baseId).files
      (initPresState (sources baseId)
        (prepareBase (sources baseId) baseId)).ms := by
    intro f hf
    left
    have hw : f ∈ (prepareBase (sources baseId) baseId).workFiles := hf
    rw [prepareBase_workFiles] at hw
    exact hw
  obtain ⟨htrF, hctF⟩ := tracked_fold sources (sources baseId).files reqs
    _ hwf hct htr0 out0 hfold
  have hctF2 : out0.ms.ctDoc = (sources baseId).ctDoc := by
    rw [hctF]
    exact prepareBase_ctDoc _ _
  simp only [processSlides]
  rw [hfold]
  refine ⟨_, rfl, ?_⟩
  intro f hf
  have hf0 : f ∈ out0.ms.workFiles := hf
  show coveredBy
    (updateContentTypes out0.ms.ctDoc out0.ms.importedContentTypes) f
  rcases htrF f hf0 with hB | hR | hK
  · refine coveredBy_updateCT _ _ _ ?_
    rw [hctF2]
    exact hbase f hB
  · left
    obtain ⟨e, he, hle⟩ := hrels
    refine ⟨e, ?_, by rw [hle, hR]⟩
    rw [updateCT_defaults, hctF2]
    exact he
  · right
    have hk := updateCT_keys_sup out0.ms.ctDoc out0.ms.importedContentTypes _
      (Or.inr hK)
    obtain ⟨o, ho, hoe⟩ := List.mem_map.mp hk
    exact ⟨o, ho, hoe⟩

/-- Witness for C5: the concrete well-formed single-source merge. -/
theorem output_parts_covered_witness :
    ∃ out, processSlides (fun _ => w1Src) "A" [("A", 1)] = some out ∧
      ∀ f ∈ repackage out.ms, coveredBy out.ms.ctDoc f :=
  output_parts_covered (fun _ => w1Src) "A" [("A", 1)] (by decide) (by decide)
    (by decide) (by decide)
